import Mathlib

/-! deepin-unioncode, CodeGeeX plugin: stream reader, event parser, completion extractor.

A shallow embedding of

* `src/plugins/codegeex/copilot.cpp`: `Copilot::responseValid`, the
  `CopilotApi::response` handler installed by the constructor,
  `Copilot::generateCode`, `Copilot::checkPrefixType`, `Copilot::extractSingleLine`;
* `src/plugins/codegeex/codegeex/askapi.cpp`: the `readyRead` handler installed by
  `AskApiPrivate::processResponse`, `AskApiPrivate::processJsonObject`,
  `AskApiPrivate::assembleSSEChatBody`, `AskApiPrivate::assembleDelSessionBody`,
  `AskApiPrivate::toJsonOBject`, and the `finished` handlers of
  `AskApi::postNewSession`, `getSessionList`, `getMessageList` and `deleteSessions`.

Conventions of the embedding.

* A `QString` is the list of its characters; the null and the empty string are
  identified (Qt compares them equal, and `isEmpty` holds of both).
* Qt signals and calls into collaborators (the completion provider, the
  network API) are recorded, in order, as a list of outgoing actions.
* `QJsonDocument::fromJson` belongs to Qt, not to the plugin: the stream reader
  takes it as a parameter returning `none` on a parse error.
-/

namespace UnionCode

/-! ## Strings -/

/-- A `QString`: the sequence of its characters. -/
abbrev QString := List Char

/-- Qt's `QChar::isSpace`: the ASCII blanks `U+0009..U+000D` and `U+0020`, `U+0085`,
`U+00A0`, and the Unicode separators (categories Zs, Zl, Zp). -/
def isSpace (c : Char) : Bool :=
  let u := c.toNat
  u == 0x20 || (0x09 ≤ u && u ≤ 0x0d) ||
    (u > 127 && (u == 0x85 || u == 0xa0 || u == 0x1680 || (0x2000 ≤ u && u ≤ 0x200a) ||
      u == 0x2028 || u == 0x2029 || u == 0x202f || u == 0x205f || u == 0x3000))

/-- Qt's `QString::trimmed`: whitespace removed from the end and from the start. -/
def trimmed (s : QString) : QString :=
  (s.rdropWhile isSpace).dropWhile isSpace

/-- Qt's `QString::split(sep)` with the default `KeepEmptyParts`: the pieces
between the separators; the empty string gives one empty piece. -/
def split (sep : Char) : QString → List QString
  | [] => [[]]
  | c :: cs =>
    if c = sep then [] :: split sep cs
    else
      match split sep cs with
      | [] => [[c]]
      | l :: ls => (c :: l) :: ls

/-- Qt's `QString::indexOf(ch)`: the position of the first occurrence, `-1` when
there is none. -/
def indexOf (s : QString) (ch : Char) : Int :=
  if ch ∈ s then (s.indexOf ch : Nat) else -1

/-- Qt's `QString::mid(position, n)` for a position that is not negative: `n`
characters from `position` on, all that are left when `n` is negative (the
default `-1`) or larger than what is left. -/
def mid (s : QString) (position : Nat) (n : Int) : QString :=
  if n < 0 then s.drop position else (s.drop position).take n.toNat

/-- Qt's `QString::startsWith`. -/
def startsWith (s pre : QString) : Bool := pre.isPrefixOf s

/-- Qt's `QString::endsWith`. -/
def endsWith (s suf : QString) : Bool := suf.isSuffixOf s

/-- Qt's `QString::endsWith(QChar)`. -/
def endsWithChar (s : QString) (c : Char) : Bool := s.getLast? == some c

/-- Qt's `QString::chop(1)`: the last character removed. -/
def chop1 (s : QString) : QString := s.dropLast

/-! ## Completion extractor (`copilot.cpp`) -/

/-- Modelled from the spec: `CopilotApi::GenerateType`, declared in `copilotapi.h`;
the two generation modes the handler distinguishes, Line and Block. -/
inductive GenerateType
  | Line
  | Block
  deriving DecidableEq, Repr

/-- Modelled from the spec: `CopilotApi::ResponseType`, declared in `copilotapi.h`;
the two kinds the handler names, and `other` for those its `default:` takes. -/
inductive ResponseType
  | multilingual_code_comment
  | inline_completions
  | other
  deriving DecidableEq, Repr

/-- What `Copilot` sends out: requests to the network API and calls into the
editor and the completion provider. -/
inductive Action
  | postGenerate (url pre suf : QString) (type : GenerateType)
  | setInlineCompletions (completions : List QString)
  | finished
  | replaceSelectedText (text : QString)
  deriving DecidableEq, Repr

/-- Whether an action is a generation request. -/
def Action.isPostGenerate : Action → Bool
  | .postGenerate _ _ _ _ => true
  | _ => false

/-- The request url `kUrlGenerateMultiLine`. -/
def kUrlGenerateMultiLine : QString :=
  "https://api.codegeex.cn:8443/v3/completions/inline?stream=false".toList

/-- The fields of `Copilot` the completion extractor reads and writes, with the
completion provider's enabled flag and inline-completion context. -/
structure Copilot where
  generateCache : List QString
  generatedCode : QString
  generateType : GenerateType
  inlineCompletionEnabled : Bool
  contextPrefix : QString
  contextSuffix : QString
  deriving DecidableEq, Repr

/-- `Copilot::responseValid`. -/
def responseValid (response : QString) : Bool :=
  !(response.isEmpty
    || startsWith response ['\n', '\n', '\n']
    || startsWith response (['\n'] ++ "    ".toList ++ ['\n'] ++ "    ".toList))

/-- `Copilot::checkPrefixType`: the Line branch is under `if (0)`. -/
def checkPrefixType (_prefixCode : QString) : GenerateType :=
  if false then GenerateType.Line else GenerateType.Block

/-- The first loop of `Copilot::extractSingleLine`, over the lines the range-for
visits, on the loop's variables (`extractedCode`, `completion`, `generateCache`):
a visited line is appended (a line break for a blank one) and the front of the
buffer removed; the loop breaks at the visit after a non-blank line. -/
def extractLoop : List QString → Bool × QString × List QString → Bool × QString × List QString
  | [], st => st
  | line :: rest, (extractedCode, completion, generateCache) =>
    if extractedCode then (extractedCode, completion, generateCache)
    else
      extractLoop rest
        (if line ≠ [] then true else extractedCode,
         completion ++ (if line = [] then ['\n'] else line),
         generateCache.tail)

/-- The second loop of `Copilot::extractSingleLine`: `leftAllEmpty`, whether every
line left in the buffer is blank. -/
def leftAllEmpty : List QString → Bool
  | [] => true
  | line :: rest => if line = [] then leftAllEmpty rest else false

/-- `Copilot::extractSingleLine`: the returned string and the buffer it leaves. -/
def extractSingleLine (generateCache : List QString) : QString × List QString :=
  if generateCache.isEmpty then ([], generateCache)
  else
    let (extractedCode, completion, generateCache) :=
      extractLoop generateCache (false, [], generateCache)
    let completion := completion ++ ['\n']
    let (completion, generateCache) :=
      if leftAllEmpty generateCache then (completion ++ ['\n'], []) else (completion, generateCache)
    let completion := if !extractedCode then [] else completion
    (completion, generateCache)

/-- The `CopilotApi::response` handler connected in the constructor of `Copilot`:
the state after it and the actions it sends out. -/
def onResponse (c : Copilot) (responseType : ResponseType) (response : QString)
    (_dstLang : QString) : Copilot × List Action :=
  match responseType with
  | .multilingual_code_comment => (c, [Action.replaceSelectedText response])
  | .inline_completions =>
    if !responseValid response then (c, [])
    else
      let (completion, generateCache) :=
        match c.generateType with
        | .Line => extractSingleLine (split '\n' response)
        | .Block => (response, [])
      let completion := if endsWithChar completion '\n' then chop1 completion else completion
      ({ c with generateCache := generateCache, generatedCode := completion },
       [Action.setInlineCompletions [completion], Action.finished])
  | .other => (c, [])

/-- `Copilot::generateCode`: the state after it and the actions it sends out. -/
def generateCode (c : Copilot) : Copilot × List Action :=
  if !c.inlineCompletionEnabled then (c, [])
  else if !endsWith c.contextPrefix c.generatedCode || c.generateCache.isEmpty then
    let generateType := checkPrefixType c.contextPrefix
    ({ c with generateType := generateType },
     [Action.postGenerate kUrlGenerateMultiLine c.contextPrefix c.contextSuffix generateType])
  else
    let (generatedCode, generateCache) := extractSingleLine c.generateCache
    ({ c with generatedCode := generatedCode, generateCache := generateCache },
     [Action.setInlineCompletions [generatedCode], Action.finished])

/-! ## JSON values (Qt's `QJsonValue`, `QJsonObject`, `QJsonArray`, `QJsonDocument`) -/

/-- A `QJsonValue`. An object is the list of its members in the order its
iterator visits them; a number is a rational (every finite double is one). -/
inductive QJsonValue
  | Null
  | Bool (b : Bool)
  | Double (d : Rat)
  | String (s : QString)
  | Array (a : List QJsonValue)
  | Object (o : List (QString × QJsonValue))
  | Undefined

/-- A `QJsonObject`: its members, in iteration order. -/
abbrev QJsonObject := List (QString × QJsonValue)

/-- A `QJsonArray`. -/
abbrev QJsonArray := List QJsonValue

/-- `QJsonValue::toString()`: the string, the null string for any other value. -/
def QJsonValue.toString : QJsonValue → QString
  | .String s => s
  | _ => []

/-- `QJsonValue::toArray()`: the array, the empty array for any other value. -/
def QJsonValue.toArray : QJsonValue → QJsonArray
  | .Array a => a
  | _ => []

/-- `QJsonValue::toObject()`: the object, the empty object for any other value. -/
def QJsonValue.toObject : QJsonValue → QJsonObject
  | .Object o => o
  | _ => []

/-- `QJsonObject::value(key)` and `operator[](key)` on a const object: the member
of that key, `Undefined` when there is none. -/
def QJsonObject.value (o : QJsonObject) (key : QString) : QJsonValue :=
  match o.lookup key with
  | some v => v
  | none => QJsonValue.Undefined

/-- A `QJsonDocument` that parsed: its top level is an array or an object. -/
inductive QJsonDocument
  | ofArray (a : QJsonArray)
  | ofObject (o : QJsonObject)

/-- `QJsonDocument::object()`: the object, the empty object when the document
holds an array. -/
def QJsonDocument.object : QJsonDocument → QJsonObject
  | .ofObject o => o
  | .ofArray _ => []

/-! ## Event parser and stream reader (`askapi.cpp`) -/

/-- Modelled from the spec: `websiteReference`, declared in `askapi.h`; the four
strings `processJsonObject` fills in (citation key, status, url, title). -/
structure websiteReference where
  citation : QString
  status : QString
  url : QString
  title : QString
  deriving DecidableEq, Repr

/-- Modelled from the spec: `Entry`, declared in `askapi.h`; kind (`type`), text and
websites, all empty in a default-constructed Entry. -/
structure Entry where
  type : QString
  text : QString
  websites : List websiteReference
  deriving DecidableEq, Repr

/-- The signals of `AskApi` the stream reader emits. -/
inductive Signal
  | response (msgID : QString) (response : QString) (event : QString)
  | crawledWebsite (msgID : QString) (websites : List websiteReference)
  deriving DecidableEq, Repr

/-- `AskApiPrivate::processJsonObject`; `obj` is `none` for a null pointer. -/
def processJsonObject (event : QString) (obj : Option QJsonObject) : Entry :=
  let entry : Entry := ⟨[], [], []⟩
  match obj with
  | none => entry
  | some obj =>
    if obj.isEmpty then entry
    else if event = "add".toList then
      { entry with type := "text".toList, text := (obj.value "text".toList).toString }
    else if event = "processing".toList then
      let type := (obj.value "type".toList).toString
      let entry := { entry with type := type }
      if type = "keyword".toList then
        let keyWords := (obj.value "data".toList).toArray
        let keys := keyWords.foldl (fun keys key => keys ++ key.toString ++ " ".toList) []
        { entry with text := trimmed keys }
      else if type = "crawl".toList then
        let crawlObj := (obj.value "data".toList).toObject
        crawlObj.foldl
          (fun entry it =>
            let citationKey := it.1
            let citationObj := it.2.toObject
            let website : websiteReference :=
              { citation := citationKey
                status := (citationObj.value "status".toList).toString
                url := (citationObj.value "url".toList).toString
                title := (citationObj.value "title".toList).toString }
            { entry with websites := entry.websites ++ [website] })
          entry
      else entry
    else if event = "finish".toList then
      { entry with text := (obj.value "text".toList).toString, type := event }
    else entry

/-- The website reference `processJsonObject` builds from one member of the
data object of a crawl payload. -/
def websiteOf (it : QString × QJsonValue) : websiteReference :=
  { citation := it.1
    status := (it.2.toObject.value "status".toList).toString
    url := (it.2.toObject.value "url".toList).toString
    title := (it.2.toObject.value "title".toList).toString }

/-- The `key` of a line in the stream reader: `line.mid(0, line.indexOf(':'))`. -/
def lineKey (line : QString) : QString :=
  mid line 0 (indexOf line ':')

/-- The `value` of a line in the stream reader: `line.mid(line.indexOf(':') + 1)`. -/
def lineValue (line : QString) : QString :=
  mid line (indexOf line ':' + 1).toNat (-1)

/-- The loop over the lines in the `readyRead` handler of
`AskApiPrivate::processResponse`, on the loop's variables `(event, id)`: the
signals emitted, in order. `fromJson` is `QJsonDocument::fromJson` on the
UTF-8 bytes of its argument, `none` for a parse error. -/
def lineLoop (fromJson : QString → Option QJsonDocument) :
    List QString → QString × QString → List Signal
  | [], _ => []
  | line :: rest, (event, id) =>
    let key := lineKey line
    let value := lineValue line
    if key = "event".toList then lineLoop fromJson rest (trimmed value, id)
    else if key = "id".toList then lineLoop fromJson rest (event, trimmed value)
    else if key = "data".toList then
      match fromJson value with
      | none =>
        if event = "finish".toList then [Signal.response id [] event]
        else lineLoop fromJson rest (event, id)
      | some jsonDocument =>
        let jsonObject := jsonDocument.object
        let entry := processJsonObject event (some jsonObject)
        (if entry.type = "crawl".toList then Signal.crawledWebsite id entry.websites
         else Signal.response id entry.text event) :: lineLoop fromJson rest (event, id)
    else lineLoop fromJson rest (event, id)

/-- The values of `(event, id)` when the loop of the `readyRead` handler has
visited the given lines; `none` when the handler returned before their end. -/
def lineVars (fromJson : QString → Option QJsonDocument) :
    List QString → QString × QString → Option (QString × QString)
  | [], vars => some vars
  | line :: rest, (event, id) =>
    let key := lineKey line
    let value := lineValue line
    if key = "event".toList then lineVars fromJson rest (trimmed value, id)
    else if key = "id".toList then lineVars fromJson rest (event, trimmed value)
    else if key = "data".toList then
      match fromJson value with
      | none =>
        if event = "finish".toList then none
        else lineVars fromJson rest (event, id)
      | some _ => lineVars fromJson rest (event, id)
    else lineVars fromJson rest (event, id)

/-- The `readyRead` handler connected by `AskApiPrivate::processResponse`, on the
text `QString::fromUtf8(reply->readAll())` of one chunk: nothing is emitted when
the reply reports an error, else the lines of the chunk are visited with
`event` and `id` empty at the start. -/
def readyRead (fromJson : QString → Option QJsonDocument) (replyError : Bool)
    (replyMsg : QString) : List Signal :=
  if replyError then []
  else lineLoop fromJson (split '\n' replyMsg) ([], [])

/-! ## Streams of event/id/data lines -/

/-- A line of a server-sent-event stream: a field line `event:`, `id:` or
`data:` with its value, or a blank line. -/
inductive SSELine
  | event (value : QString)
  | id (value : QString)
  | data (value : QString)
  | blank
  deriving DecidableEq, Repr

/-- The text of a line, without its line break. -/
def SSELine.text : SSELine → QString
  | .event v => "event:".toList ++ v
  | .id v => "id:".toList ++ v
  | .data v => "data:".toList ++ v
  | .blank => []

/-- The value a field line carries (none for a blank line). -/
def SSELine.value : SSELine → QString
  | .event v => v
  | .id v => v
  | .data v => v
  | .blank => []

/-- The text of a stream: every line followed by a line break. -/
def streamText (s : List SSELine) : QString :=
  (s.map (fun l => l.text ++ ['\n'])).flatten

/-- A stream is well formed when no value holds a line break and the value of
every data line parses as JSON. -/
def wellFormed (fromJson : QString → Option QJsonDocument) (s : List SSELine) : Bool :=
  s.all fun l =>
    !l.value.contains '\n' &&
      match l with
      | .data v => (fromJson v).isSome
      | _ => true

/-- Whether a stream states its event and its id before its first data line,
given whether each has been seen already. -/
def statesEventId : List SSELine → Bool → Bool → Bool
  | [], _, _ => true
  | .event _ :: rest, _, seenId => statesEventId rest true seenId
  | .id _ :: rest, seenEvent, _ => statesEventId rest seenEvent true
  | .data _ :: _, seenEvent, seenId => seenEvent && seenId
  | .blank :: rest, seenEvent, seenId => statesEventId rest seenEvent seenId

/-- A parser for the examples: it knows the document `{"text":"hi"}` and the
document `{"type":"crawl","data":{"1":{"status":"ok","url":"http://x","title":"X"}}}`,
parsed as Qt parses them, and reports a parse error for the text `oops`
and any other. -/
def sampleFromJson (s : QString) : Option QJsonDocument :=
  if s = "\x7b\"text\":\"hi\"\x7d".toList then
    some (.ofObject [("text".toList, .String "hi".toList)])
  else if s = "\x7b\"type\":\"crawl\",\"data\":\x7b\"1\":\x7b\"status\":\"ok\",\"url\":\"http://x\",\"title\":\"X\"\x7d\x7d\x7d".toList then
    some (.ofObject
      [("data".toList, .Object [("1".toList, .Object
          [("status".toList, .String "ok".toList),
           ("title".toList, .String "X".toList),
           ("url".toList, .String "http://x".toList)])]),
       ("type".toList, .String "crawl".toList)])
  else none

/-- A stream of one record: the lines `event:add`, `id:1` and a data line. -/
def cutStream : List SSELine :=
  [SSELine.event "add".toList, SSELine.id "1".toList,
   SSELine.data "\x7b\"text\":\"hi\"\x7d".toList]

/-! ## Request assembler and session store (`askapi.cpp`) -/

/-- `QJsonValue::toInt()`: the number when the value is a number that is an
integer in the range of `int`, the default `0` for any other value. -/
def QJsonValue.toInt : QJsonValue → Int
  | .Double d =>
    if d.den = 1 ∧ -2147483648 ≤ d.num ∧ d.num ≤ 2147483647 then d.num else 0
  | _ => 0

/-- The type of truth values, under a name that the constructor `QJsonValue.Bool`
does not hide. -/
abbrev Boolean := Bool

/-- `QJsonValue::toBool()`: the boolean, `false` for any other value. -/
def QJsonValue.toBool : QJsonValue → Boolean
  | .Bool b => b
  | _ => false

/-- `QJsonObject::insert(key, value)` and assignment through `operator[]`, for a
value that is not `Undefined`: the member of that key is replaced, a new member
is put at its place in the order of the keys. -/
def QJsonObject.insert : QJsonObject → QString → QJsonValue → QJsonObject
  | [], key, value => [(key, value)]
  | (k, v) :: rest, key, value =>
    if key < k then (key, value) :: (k, v) :: rest
    else if key = k then (key, value) :: rest
    else (k, v) :: QJsonObject.insert rest key value

/-- The success code `kCode_Success`. -/
def kCode_Success : Int := 200

/-- A `QByteArray` of Latin-1 text: its bytes, each as the character of that
code. -/
abbrev QByteArray := List Char

/-- Qt's `QString::toLatin1`: a character outside Latin-1 becomes `?`. -/
def toLatin1 (s : QString) : QByteArray :=
  s.map fun c => if c.toNat ≤ 255 then c else '?'

/-- The body `AskApiPrivate::assembleSSEChatBody` returns: the empty byte array of
its `return {}`, or `jsonToByteArray(jsonObject)`, the text
`QJsonDocument(jsonObject).toJson()` of an object, which holds at least the
braces of the object. -/
inductive Body
  | empty
  | toJson (jsonObject : QJsonObject)

/-- `QByteArray::isEmpty` on a body. -/
def Body.isEmpty : Body → Bool
  | .empty => true
  | .toJson _ => false

/-- The fields of `AskApiPrivate` the request assembler reads. -/
structure AskApiPrivate where
  model : QString
  locale : QString
  codebaseEnabled : Bool
  networkEnabled : Bool
  referenceFiles : List QString

/-- What `assembleSSEChatBody` sends out besides its result: the calls
`cleanHistoryMessage()` and `notify(...)` on `CodeGeeXManager` (the notice that
the indexing of the project is not complete) and the signal `noChunksFounded`. -/
inductive AssembleAction
  | cleanHistoryMessage
  | notifyIndexing (projectPath : QString)
  | noChunksFounded
  deriving DecidableEq, Repr

/-- The instruction `assembleSSEChatBody` writes between the prompt and the
chunks. -/
def kChunkInstruction : QString :=
  "\n 参考下面这些代码片段，回答上面的问题。不要参考其他的代码和上下文，数据不够充分的情况下提示用户\n".toList

/-- The loop over the chunks in `assembleSSEChatBody`: file name, line break,
content and two line breaks of every chunk are appended to `context`. -/
def appendChunks (context : QString) (chunks : QJsonArray) : QString :=
  chunks.foldl
    (fun context chunk =>
      context ++ (chunk.toObject.value "fileName".toList).toString ++ ['\n']
        ++ (chunk.toObject.value "content".toList).toString ++ "\n\n".toList)
    context

/-- The part of `assembleSSEChatBody` after the codebase block: the `command` of
the reference files or of the network search, and the `talkId`, put into
`jsonObject`. `parseFile` is `AskApiPrivate::parseFile`, which reads the
reference files. -/
def assembleCommand (d : AskApiPrivate) (parseFile : List QString → QJsonArray)
    (talkId : QString) (jsonObject : QJsonObject) : QJsonObject :=
  let jsonObject :=
    if !d.referenceFiles.isEmpty then
      let fileDatas := parseFile d.referenceFiles
      let jsonObject :=
        QJsonObject.insert jsonObject "command".toList (.String "file_augment".toList)
      let files : QJsonObject := QJsonObject.insert [] "files".toList (.Array fileDatas)
      QJsonObject.insert jsonObject "files".toList (.Object files)
    else if d.networkEnabled then
      QJsonObject.insert jsonObject "command".toList (.String "online_search".toList)
    else jsonObject
  if !talkId.isEmpty then QJsonObject.insert jsonObject "talkId".toList (.String talkId)
  else jsonObject

/-- `AskApiPrivate::assembleSSEChatBody`: the body and the actions sent out.
`currentProjectPath` is the workspace folder of the active project, `query` is
`CodeGeeXManager::query`, `condaHasInstalled` the answer of
`CodeGeeXManager::condaHasInstalled()`. -/
def assembleSSEChatBody (d : AskApiPrivate) (currentProjectPath : QString)
    (query : QString → QString → Int → QJsonObject) (condaHasInstalled : Bool)
    (parseFile : List QString → QJsonArray)
    (prompt machineId : QString) (history : QJsonArray) (talkId : QString) :
    Body × List AssembleAction :=
  let jsonObject : QJsonObject := []
  let jsonObject := QJsonObject.insert jsonObject "prompt".toList (.String prompt)
  let jsonObject := QJsonObject.insert jsonObject "machineId".toList (.String machineId)
  let jsonObject := QJsonObject.insert jsonObject "history".toList (.Array history)
  let jsonObject := QJsonObject.insert jsonObject "locale".toList (.String d.locale)
  let jsonObject := QJsonObject.insert jsonObject "model".toList (.String d.model)
  if d.codebaseEnabled && currentProjectPath != [] then
    let result := query currentProjectPath prompt 20
    let chunks := (result.value "Chunks".toList).toArray
    if !chunks.isEmpty then
      let actions :=
        [AssembleAction.cleanHistoryMessage] ++
          (if (result.value "Completed".toList).toBool == false then
            [AssembleAction.notifyIndexing currentProjectPath]
          else [])
      let jsonObject := QJsonObject.insert jsonObject "history".toList (.Array [])
      let context := prompt ++ kChunkInstruction
      let context := appendChunks context chunks
      let jsonObject := QJsonObject.insert jsonObject "prompt".toList (.String context)
      (Body.toJson (assembleCommand d parseFile talkId jsonObject), actions)
    else if condaHasInstalled then
      (Body.empty, [AssembleAction.noChunksFounded])
    else (Body.toJson (assembleCommand d parseFile talkId jsonObject), [])
  else (Body.toJson (assembleCommand d parseFile talkId jsonObject), [])

/-- The object `assembleSSEChatBody` starts with: `prompt`, `machineId`, `history`,
`locale` and `model`. -/
def chatObject (d : AskApiPrivate) (prompt machineId : QString) (history : QJsonArray) :
    QJsonObject :=
  QJsonObject.insert
    (QJsonObject.insert
      (QJsonObject.insert
        (QJsonObject.insert
          (QJsonObject.insert [] "prompt".toList (.String prompt))
          "machineId".toList (.String machineId))
        "history".toList (.Array history))
      "locale".toList (.String d.locale))
    "model".toList (.String d.model)

/-- The object of `assembleSSEChatBody` after the chunks are merged: the history
emptied and the prompt rewritten. -/
def chunkObject (d : AskApiPrivate) (prompt machineId : QString) (history : QJsonArray)
    (chunks : QJsonArray) : QJsonObject :=
  QJsonObject.insert
    (QJsonObject.insert (chatObject d prompt machineId history) "history".toList (.Array []))
    "prompt".toList (.String (appendChunks (prompt ++ kChunkInstruction) chunks))

/-- The object a body is the JSON text of; the empty object for the empty body. -/
def Body.object : Body → QJsonObject
  | .empty => []
  | .toJson jsonObject => jsonObject

/-- An index of the examples: for every project and prompt it returns the one
chunk of file `f` with content `c`, and reports the indexing as complete. -/
def sampleQuery (_projectPath _prompt : QString) (_topK : Int) : QJsonObject :=
  [("Chunks".toList, .Array [.Object [("content".toList, .String "c".toList),
      ("fileName".toList, .String "f".toList)]]),
   ("Completed".toList, .Bool true)]

/-- An index of the examples that finds no chunk. -/
def emptyQuery (_projectPath _prompt : QString) (_topK : Int) : QJsonObject :=
  [("Chunks".toList, .Array []), ("Completed".toList, .Bool true)]

/-- `AskApiPrivate::assembleDelSessionBody`. -/
def assembleDelSessionBody (talkIds : List QString) : QByteArray :=
  let ret := "[\n".toList
  let ret := talkIds.foldl (fun ret talkId => ret ++ "\"".toList ++ talkId ++ "\"\n".toList) ret
  let ret := ret ++ "]".toList
  toLatin1 ret

/-- `AskApiPrivate::toJsonOBject` on the text of the reply: the object of the
parsed document, the empty object when the text does not parse. -/
def toJsonOBject (fromJson : QString → Option QJsonDocument) (response : QString) :
    QJsonObject :=
  match fromJson response with
  | some document => document.object
  | none => []

/-- Modelled from the spec: `SessionRecord`, declared in `askapi.h`; the summary of
a session (`talkId`, `createdTime`, `prompt`). -/
structure SessionRecord where
  talkId : QString
  createdTime : QString
  prompt : QString
  deriving DecidableEq, Repr

/-- Modelled from the spec: `MessageRecord`, declared in `askapi.h`; the summary of
a message (`input`, `output`). -/
structure MessageRecord where
  input : QString
  output : QString
  deriving DecidableEq, Repr

/-- The signals of `AskApi` the session-store operations emit. -/
inductive SessionSignal
  | sessionCreated (talkId : QString) (success : Bool)
  | getSessionListResult (records : List SessionRecord)
  | getMessageListResult (records : List MessageRecord)
  | sessionDeleted (talkIds : List QString) (success : Bool)
  deriving DecidableEq, Repr

/-- The `finished` handler of `AskApi::postNewSession`: `replyError` is
`reply->error()`, `response` the text of the reply. -/
def postNewSessionFinished (fromJson : QString → Option QJsonDocument) (talkId : QString)
    (replyError : Bool) (response : QString) : List SessionSignal :=
  if replyError then []
  else
    let jsonObject := toJsonOBject fromJson response
    let code := (jsonObject.value "code".toList).toInt
    [SessionSignal.sessionCreated talkId (code == kCode_Success)]

/-- The `finished` handler of `AskApi::getSessionList`. -/
def getSessionListFinished (fromJson : QString → Option QJsonDocument)
    (replyError : Bool) (response : QString) : List SessionSignal :=
  if replyError then []
  else
    let jsonObject := toJsonOBject fromJson response
    let code := (jsonObject.value "code".toList).toInt
    if code == kCode_Success then
      let listArray := (((jsonObject.value "data".toList).toObject).value "list".toList).toArray
      let records := listArray.map fun it =>
        let item := it.toObject
        ({ talkId := (item.value "talkId".toList).toString
           createdTime := (item.value "createTime".toList).toString
           prompt := (item.value "prompt".toList).toString } : SessionRecord)
      [SessionSignal.getSessionListResult records]
    else []

/-- The `finished` handler of `AskApi::getMessageList`. -/
def getMessageListFinished (fromJson : QString → Option QJsonDocument)
    (replyError : Bool) (response : QString) : List SessionSignal :=
  if replyError then []
  else
    let jsonObject := toJsonOBject fromJson response
    let code := (jsonObject.value "code".toList).toInt
    if code == kCode_Success then
      let listArray := (((jsonObject.value "data".toList).toObject).value "list".toList).toArray
      let records := listArray.map fun it =>
        let item := it.toObject
        ({ input := (item.value "prompt".toList).toString
           output := (item.value "outputText".toList).toString } : MessageRecord)
      [SessionSignal.getMessageListResult records]
    else []

/-- The `finished` handler of `AskApi::deleteSessions`. -/
def deleteSessionsFinished (fromJson : QString → Option QJsonDocument)
    (talkIds : List QString) (replyError : Bool) (response : QString) : List SessionSignal :=
  if replyError then []
  else
    let jsonObject := toJsonOBject fromJson response
    let code := (jsonObject.value "code".toList).toInt
    [SessionSignal.sessionDeleted talkIds (code == kCode_Success)]

/-- A parser for the examples of the session store: it knows the envelopes
`{"code":200}`, `{"code":500}` and `{"code":"200"}`, parsed as Qt parses them,
and reports a parse error for any other text. -/
def sampleEnvelope (s : QString) : Option QJsonDocument :=
  if s = "\x7b\"code\":200\x7d".toList then
    some (.ofObject [("code".toList, .Double 200)])
  else if s = "\x7b\"code\":500\x7d".toList then
    some (.ofObject [("code".toList, .Double 500)])
  else if s = "\x7b\"code\":\"200\"\x7d".toList then
    some (.ofObject [("code".toList, .String "200".toList)])
  else none

/-! ## Repeated extraction -/

/-- Calls of `Copilot::extractSingleLine`, one after the other, until the line
buffer is empty and at most `calls` of them: the strings returned, in order,
and the buffer left. -/
def drain : Nat → List QString → List QString × List QString
  | 0, generateCache => ([], generateCache)
  | calls + 1, generateCache =>
    if generateCache.isEmpty then ([], generateCache)
    else
      let (completion, generateCache) := extractSingleLine generateCache
      let (completions, generateCache) := drain calls generateCache
      (completion :: completions, generateCache)

/-- A returned string releases the line `L`: it is `L` after some line breaks and
before one or two line breaks. -/
def Releases (completion L : QString) : Prop :=
  ∃ k t, completion = List.replicate k '\n' ++ L ++ List.replicate t '\n' ∧ (t = 1 ∨ t = 2)

/-! ## Runs of the completion controller -/

/-- What can happen to `Copilot` between two looks at its line buffer: a call of
`generateCode` (the timer fires), a response of the network API, the editor
moving the inline-completion context, and `setGenerateCodeEnabled`. -/
inductive Event
  | generateCode
  | response (responseType : ResponseType) (response dstLang : QString)
  | setContext (pre suf : QString)
  | setGenerateCodeEnabled (enabled : Bool)
  deriving DecidableEq, Repr

/-- The controller in a run: its state and the number of generation requests
issued by `generateCode` that have no response yet. -/
structure Session where
  copilot : Copilot
  pending : Nat
  deriving DecidableEq, Repr

/-- One event of a run. An inline-completion response answers a request that
`generateCode` issued: it cannot happen while no request is pending (`none`). -/
def step (s : Session) : Event → Option Session
  | .generateCode =>
    let (c, actions) := generateCode s.copilot
    some ⟨c, s.pending + (actions.filter Action.isPostGenerate).length⟩
  | .response .inline_completions response dstLang =>
    if s.pending = 0 then none
    else some ⟨(onResponse s.copilot .inline_completions response dstLang).1, s.pending - 1⟩
  | .response responseType response dstLang =>
    some ⟨(onResponse s.copilot responseType response dstLang).1, s.pending⟩
  | .setContext pre suf =>
    some ⟨{ s.copilot with contextPrefix := pre, contextSuffix := suf }, s.pending⟩
  | .setGenerateCodeEnabled enabled =>
    some ⟨{ s.copilot with inlineCompletionEnabled := enabled }, s.pending⟩

/-- A run: the events one after the other, `none` when one of them cannot happen. -/
def run : Session → List Event → Option Session
  | s, [] => some s
  | s, e :: rest =>
    match step s e with
    | some s1 => run s1 rest
    | none => none

/-- The invariant of a run: the line buffer is empty, and the mode is Block while a
request is pending. -/
def RunInvariant (s : Session) : Prop :=
  s.copilot.generateCache = [] ∧ (0 < s.pending → s.copilot.generateType = GenerateType.Block)

/-! ## Completion extractor: lemmas -/

theorem extractLoop_extracted (lines : List QString) (completion : QString)
    (generateCache : List QString) :
    extractLoop lines (true, completion, generateCache) = (true, completion, generateCache) := by
  cases lines <;> simp [extractLoop]

theorem extractLoop_blanks_then (k : Nat) (L : QString) (rest : List QString) (hL : L ≠ [])
    (completion : QString) :
    extractLoop (List.replicate k [] ++ L :: rest)
        (false, completion, List.replicate k [] ++ L :: rest)
      = (true, completion ++ List.replicate k '\n' ++ L, rest) := by
  induction k generalizing completion with
  | zero => simp [extractLoop, hL, extractLoop_extracted]
  | succ k ih =>
    simp only [List.replicate_succ, List.cons_append, extractLoop]
    simp [ih, List.append_assoc]

theorem extractLoop_blanks (k : Nat) (completion : QString) :
    extractLoop (List.replicate k []) (false, completion, List.replicate k [])
      = (false, completion ++ List.replicate k '\n', []) := by
  induction k generalizing completion with
  | zero => simp [extractLoop]
  | succ k ih =>
    simp only [List.replicate_succ, extractLoop]
    simp [ih, List.append_assoc]

theorem leftAllEmpty_iff (lines : List QString) :
    leftAllEmpty lines = true ↔ ∀ x ∈ lines, x = [] := by
  induction lines with
  | nil => simp [leftAllEmpty]
  | cons line rest ih =>
    by_cases h : line = []
    · simp [leftAllEmpty, h, ih]
    · simp [leftAllEmpty, h]

theorem blanks_or_line (lines : List QString) :
    (∃ k, lines = List.replicate k []) ∨
      ∃ k L rest, L ≠ [] ∧ lines = List.replicate k [] ++ L :: rest := by
  induction lines with
  | nil => exact Or.inl ⟨0, rfl⟩
  | cons line rest ih =>
    by_cases h : line = []
    · subst h
      rcases ih with ⟨k, hk⟩ | ⟨k, L, r, hL, hk⟩
      · exact Or.inl ⟨k + 1, by simp [hk, List.replicate_succ]⟩
      · exact Or.inr ⟨k + 1, L, r, hL, by simp [hk, List.replicate_succ]⟩
    · exact Or.inr ⟨0, line, rest, h, by simp⟩

theorem extractSingleLine_blanks (k : Nat) :
    extractSingleLine (List.replicate k []) = ([], []) := by
  cases k with
  | zero => simp [extractSingleLine]
  | succ k =>
    have h := extractLoop_blanks (k + 1) []
    simp only [extractSingleLine, h]
    simp [leftAllEmpty, List.replicate_succ]

theorem extractSingleLine_line (k : Nat) (L : QString) (rest : List QString) (hL : L ≠ []) :
    extractSingleLine (List.replicate k [] ++ L :: rest)
      = if leftAllEmpty rest then (List.replicate k '\n' ++ L ++ ['\n', '\n'], [])
        else (List.replicate k '\n' ++ L ++ ['\n'], rest) := by
  simp only [extractSingleLine, extractLoop_blanks_then k L rest hL]
  by_cases h : leftAllEmpty rest = true <;> simp [h]

theorem intercalate_blanks (k : Nat) (L : QString) :
    List.intercalate ['\n'] (List.replicate k [] ++ [L]) = List.replicate k '\n' ++ L := by
  induction k with
  | zero => simp [List.intercalate]
  | succ k ih =>
    cases k with
    | zero => simp [List.intercalate, List.intersperse]
    | succ k =>
      simp only [List.intercalate, List.replicate_succ, List.cons_append,
        List.intersperse, List.flatten_cons] at ih ⊢
      simp [ih]

/-! ## Completion extractor: the claims -/

/-- C4: on a buffer of `k` blank lines, a non-blank line `L` and a rest holding a
non-blank line, `extractSingleLine` returns the consumed lines joined by line
breaks plus one line break, that is `k` line breaks, `L` and one line break, and
leaves exactly the rest; on `["", "", "foo", "bar", ""]` it returns
`"\n\nfoo\n"` and leaves `["bar", ""]`. -/
theorem extractSingleLine_rest_nonblank (k : Nat) (L : QString) (rest : List QString)
    (hL : L ≠ []) (hrest : ∃ x ∈ rest, x ≠ []) :
    extractSingleLine (List.replicate k [] ++ L :: rest)
        = (List.replicate k '\n' ++ L ++ ['\n'], rest)
      ∧ List.replicate k '\n' ++ L ++ ['\n']
          = List.intercalate ['\n'] (List.replicate k [] ++ [L]) ++ ['\n']
      ∧ extractSingleLine [[], [], "foo".toList, "bar".toList, []]
          = ("\n\nfoo\n".toList, ["bar".toList, []]) := by
  refine ⟨?_, by rw [intercalate_blanks], by decide⟩
  have h : leftAllEmpty rest = false := by
    cases hl : leftAllEmpty rest with
    | false => rfl
    | true =>
      obtain ⟨x, hx, hne⟩ := hrest
      exact absurd ((leftAllEmpty_iff rest).1 hl x hx) hne
  rw [extractSingleLine_line k L rest hL, h]
  simp

theorem extractSingleLine_rest_nonblank_witness :
    extractSingleLine (List.replicate 1 [] ++ ['a'] :: [[], ['b']])
        = (List.replicate 1 '\n' ++ ['a'] ++ ['\n'], [[], ['b']])
      ∧ List.replicate 1 '\n' ++ ['a'] ++ ['\n']
          = List.intercalate ['\n'] (List.replicate 1 [] ++ [['a']]) ++ ['\n']
      ∧ extractSingleLine [[], [], "foo".toList, "bar".toList, []]
          = ("\n\nfoo\n".toList, ["bar".toList, []]) :=
  extractSingleLine_rest_nonblank 1 ['a'] [[], ['b']] (by decide) ⟨['b'], by decide, by decide⟩

/-- C5: on a buffer of `k` blank lines, a non-blank line `L` and a rest of blank
lines only (possibly none), `extractSingleLine` leaves the buffer empty and
returns `k` line breaks, `L` and two line breaks. -/
theorem extractSingleLine_rest_blank (k : Nat) (L : QString) (rest : List QString)
    (hL : L ≠ []) (hrest : ∀ x ∈ rest, x = []) :
    extractSingleLine (List.replicate k [] ++ L :: rest)
      = (List.replicate k '\n' ++ L ++ ['\n', '\n'], []) := by
  rw [extractSingleLine_line k L rest hL, (leftAllEmpty_iff rest).2 hrest]
  simp

theorem extractSingleLine_rest_blank_witness :
    extractSingleLine (List.replicate 2 [] ++ "foo".toList :: [[], []])
      = (List.replicate 2 '\n' ++ "foo".toList ++ ['\n', '\n'], []) :=
  extractSingleLine_rest_blank 2 "foo".toList [[], []] (by decide) (by decide)

/-- C6: `extractSingleLine` returns the empty string exactly when the buffer
holds no non-blank line (the empty buffer included), and then the buffer is
empty afterwards. -/
theorem extractSingleLine_empty_iff (generateCache : List QString) :
    ((extractSingleLine generateCache).1 = [] ↔ ∀ x ∈ generateCache, x = [])
      ∧ ((∀ x ∈ generateCache, x = []) → (extractSingleLine generateCache).2 = []) := by
  rcases blanks_or_line generateCache with ⟨k, hk⟩ | ⟨k, L, rest, hL, hk⟩
  · subst hk
    simp [extractSingleLine_blanks]
  · subst hk
    have hne : ¬ ∀ x ∈ List.replicate k ([] : QString) ++ L :: rest, x = [] := by
      intro h
      exact hL (h L (by simp))
    rw [extractSingleLine_line k L rest hL]
    refine ⟨⟨fun h => ?_, fun h => absurd h hne⟩, fun h => absurd h hne⟩
    exfalso
    by_cases hl : leftAllEmpty rest = true
    · simp [hl] at h
    · simp [hl, hL] at h

theorem extractSingleLine_empty_iff_witness :
    (extractSingleLine [[], []]).2 = [] :=
  (extractSingleLine_empty_iff [[], []]).2 (by decide)

/-! ## Response handler and re-trigger policy: the claims -/

theorem endsWithChar_iff (s : QString) (c : Char) :
    endsWithChar s c = true ↔ ∃ body, s = body ++ [c] := by
  simp only [endsWithChar, beq_iff_eq]
  constructor
  · intro h
    rcases List.eq_nil_or_concat s with hs | ⟨body, b, hs⟩
    · simp [hs] at h
    · subst hs
      simp at h
      exact ⟨body, by simp [h]⟩
  · rintro ⟨body, rfl⟩
    simp

/-- C7: in Block mode, for a response that passes `responseValid` (it is not empty,
does not start with three line breaks, and does not start with a line break,
four blanks, a line break and four blanks), the handler sets the inline
completions to one string and records the same string as `generatedCode`: the
response without its last character when it ends with a line break, the
response itself when it does not. -/
theorem onResponse_block_completion (c : Copilot) (response dstLang : QString)
    (hmode : c.generateType = GenerateType.Block) (hvalid : responseValid response = true) :
    (response ≠ [] ∧ ¬ "\n\n\n".toList <+: response ∧ ¬ "\n    \n    ".toList <+: response)
      ∧ (onResponse c ResponseType.inline_completions response dstLang).2
        = [Action.setInlineCompletions
            [(onResponse c ResponseType.inline_completions response dstLang).1.generatedCode],
           Action.finished]
      ∧ (∀ body, response = body ++ ['\n'] →
          (onResponse c ResponseType.inline_completions response dstLang).1.generatedCode = body)
      ∧ ((¬ ∃ body, response = body ++ ['\n']) →
          (onResponse c ResponseType.inline_completions response dstLang).1.generatedCode
            = response) := by
  refine ⟨?_, ?_, ?_, ?_⟩
  · have hv := hvalid
    simp only [responseValid, startsWith, Bool.not_eq_true', Bool.or_eq_false_iff] at hv
    refine ⟨?_, ?_, ?_⟩
    · intro h0
      rw [h0] at hv
      exact Bool.noConfusion hv.1.1
    · intro hp
      have := List.isPrefixOf_iff_prefix.2 hp
      exact Bool.noConfusion (hv.1.2.symm.trans this)
    · intro hp
      have := List.isPrefixOf_iff_prefix.2 hp
      exact Bool.noConfusion (hv.2.symm.trans this)
  · simp [onResponse, hvalid, hmode]
  · intro body hbody
    have h : endsWithChar response '\n' = true := (endsWithChar_iff _ _).2 ⟨body, hbody⟩
    simp only [onResponse, hvalid, hmode, h]
    simp [chop1, hbody]
  · intro hno
    have h : endsWithChar response '\n' = false := by
      cases he : endsWithChar response '\n' with
      | false => rfl
      | true => exact absurd ((endsWithChar_iff _ _).1 he) hno
    simp [onResponse, hvalid, hmode, h]

theorem onResponse_block_completion_witness :
    (onResponse ⟨[], [], GenerateType.Block, true, [], []⟩ ResponseType.inline_completions
        "int x;\n".toList []).1.generatedCode = "int x;".toList :=
  (onResponse_block_completion ⟨[], [], GenerateType.Block, true, [], []⟩ "int x;\n".toList []
    rfl (by decide)).2.2.1 "int x;".toList (by decide)

/-- C8, as the claim states it, fails: in Block mode a valid response empties a
line buffer that held the line `x`. -/
theorem onResponse_block_buffer_counterexample :
    (⟨[['x']], [], GenerateType.Block, true, [], []⟩ : Copilot).generateType = GenerateType.Block
      ∧ responseValid "abc".toList = true
      ∧ (onResponse ⟨[['x']], [], GenerateType.Block, true, [], []⟩
          ResponseType.inline_completions "abc".toList []).1.generateCache = []
      ∧ (onResponse ⟨[['x']], [], GenerateType.Block, true, [], []⟩
          ResponseType.inline_completions "abc".toList []).1.generateCache
        ≠ (⟨[['x']], [], GenerateType.Block, true, [], []⟩ : Copilot).generateCache := by
  decide

/-- C8, amended: in Block mode the line buffer is empty after a response that
passes `responseValid`, whatever it held before (the handler clears it and puts
no line of the response into it), and is the buffer before after a response
that `responseValid` rejects. -/
theorem onResponse_block_buffer (c : Copilot) (response dstLang : QString)
    (hmode : c.generateType = GenerateType.Block) :
    (responseValid response = true →
        (onResponse c ResponseType.inline_completions response dstLang).1.generateCache = [])
      ∧ (responseValid response = false →
        (onResponse c ResponseType.inline_completions response dstLang).1.generateCache
          = c.generateCache) := by
  constructor
  · intro hvalid
    simp [onResponse, hvalid, hmode]
  · intro hvalid
    simp [onResponse, hvalid]

theorem onResponse_block_buffer_witness :
    (onResponse ⟨[['x'], ['y']], [], GenerateType.Block, true, [], []⟩
        ResponseType.inline_completions "abc\n".toList []).1.generateCache = [] :=
  (onResponse_block_buffer ⟨[['x'], ['y']], [], GenerateType.Block, true, [], []⟩
    "abc\n".toList [] rfl).1 (by decide)

/-- C9: with inline completion enabled, `generateCode` issues a generation
request exactly when the edit prefix does not end with `generatedCode` or the
line buffer is empty, and then that request is all it sends; otherwise it
sends no request, sets the inline completions to the result of
`extractSingleLine`, signals `finished` and records that result as
`generatedCode`. With inline completion disabled it sends nothing and changes
nothing. -/
theorem generateCode_policy (c : Copilot) :
    (c.inlineCompletionEnabled = false → generateCode c = (c, []))
      ∧ (c.inlineCompletionEnabled = true →
          ((∃ a ∈ (generateCode c).2, a.isPostGenerate = true)
              ↔ (¬ c.generatedCode <:+ c.contextPrefix ∨ c.generateCache = []))
          ∧ ((¬ c.generatedCode <:+ c.contextPrefix ∨ c.generateCache = []) →
              (generateCode c).2
                  = [Action.postGenerate kUrlGenerateMultiLine c.contextPrefix c.contextSuffix
                      (checkPrefixType c.contextPrefix)]
                ∧ (generateCode c).1.generatedCode = c.generatedCode
                ∧ (generateCode c).1.generateCache = c.generateCache)
          ∧ (¬ (¬ c.generatedCode <:+ c.contextPrefix ∨ c.generateCache = []) →
              (generateCode c).2
                  = [Action.setInlineCompletions [(extractSingleLine c.generateCache).1],
                     Action.finished]
                ∧ (generateCode c).1.generatedCode = (extractSingleLine c.generateCache).1
                ∧ (generateCode c).1.generateCache = (extractSingleLine c.generateCache).2)) := by
  constructor
  · intro h
    simp [generateCode, h]
  · intro h
    by_cases hc : ¬ c.generatedCode <:+ c.contextPrefix ∨ c.generateCache = []
    · have hb : (!endsWith c.contextPrefix c.generatedCode || c.generateCache.isEmpty) = true := by
        rcases hc with hc | hc
        · have hs : List.isSuffixOf c.generatedCode c.contextPrefix = false := by
            rw [Bool.eq_false_iff]
            exact fun hh => hc (List.isSuffixOf_iff_suffix.1 hh)
          simp [endsWith, hs]
        · simp [hc]
      simp [generateCode, h, hb, hc, Action.isPostGenerate]
    · have hb : (!endsWith c.contextPrefix c.generatedCode || c.generateCache.isEmpty) = false := by
        simp only [not_or, not_not] at hc
        have hs : List.isSuffixOf c.generatedCode c.contextPrefix = true :=
          List.isSuffixOf_iff_suffix.2 hc.1
        simp [endsWith, hs, List.isEmpty_iff, hc.2]
      simp [generateCode, h, hb, hc, Action.isPostGenerate]

theorem generateCode_policy_witness :
    generateCode ⟨[['a']], [], GenerateType.Block, false, [], []⟩
      = (⟨[['a']], [], GenerateType.Block, false, [], []⟩, []) :=
  (generateCode_policy ⟨[['a']], [], GenerateType.Block, false, [], []⟩).1 rfl

/-! ## Event parser: the crawl payload -/

theorem crawl_foldl (data : QJsonObject) (entry : Entry) :
    data.foldl
        (fun entry it =>
          { entry with
            websites := entry.websites ++
              [({ citation := it.1
                  status := (it.2.toObject.value "status".toList).toString
                  url := (it.2.toObject.value "url".toList).toString
                  title := (it.2.toObject.value "title".toList).toString } : websiteReference)] })
        entry
      = { entry with websites := entry.websites ++ data.map websiteOf } := by
  induction data generalizing entry with
  | nil => simp
  | cons it rest ih =>
    simp only [List.foldl_cons, ih, List.map_cons]
    simp [websiteOf]

theorem value_ne_undefined_nonempty (obj : QJsonObject) (key : QString) (s : QString)
    (h : obj.value key = QJsonValue.String s) : obj.isEmpty = false := by
  cases obj with
  | nil => simp [QJsonObject.value] at h
  | cons a rest => rfl

/-- C10: for a `processing` payload whose `type` is `crawl` and whose `data` is an
object of `n` members with distinct keys, `processJsonObject` returns an Entry
of kind `crawl` with exactly `n` website references, one per key and in the
order of the members: the citation is the key, and status, url and title are
the strings of these names in the key's value. For the data
`{"1": {"status":"ok","url":"http://x","title":"X"}}` the Entry holds the single
reference with citation `1`, status `ok`, url `http://x`, title `X`. -/
theorem processJsonObject_crawl (obj data : QJsonObject) (n : Nat)
    (htype : obj.value "type".toList = QJsonValue.String "crawl".toList)
    (hdata : obj.value "data".toList = QJsonValue.Object data)
    (hkeys : (data.map Prod.fst).Nodup) (hn : data.length = n) :
    (processJsonObject "processing".toList (some obj)).type = "crawl".toList
      ∧ (processJsonObject "processing".toList (some obj)).websites.length = n
      ∧ (processJsonObject "processing".toList (some obj)).websites
          = data.map (fun it =>
              { citation := it.1
                status := (it.2.toObject.value "status".toList).toString
                url := (it.2.toObject.value "url".toList).toString
                title := (it.2.toObject.value "title".toList).toString })
      ∧ ((processJsonObject "processing".toList (some obj)).websites.map
          websiteReference.citation).Nodup
      ∧ processJsonObject "processing".toList
          (some [("data".toList, QJsonValue.Object [("1".toList, QJsonValue.Object
              [("status".toList, QJsonValue.String "ok".toList),
               ("title".toList, QJsonValue.String "X".toList),
               ("url".toList, QJsonValue.String "http://x".toList)])]),
            ("type".toList, QJsonValue.String "crawl".toList)])
          = ⟨"crawl".toList, [], [⟨"1".toList, "ok".toList, "http://x".toList, "X".toList⟩]⟩ := by
  have hne := value_ne_undefined_nonempty obj _ _ htype
  have hk : ("crawl".toList = "keyword".toList) = False := by decide
  have hev : ("processing".toList = "add".toList) = False := by decide
  have hw : (processJsonObject "processing".toList (some obj))
      = ⟨"crawl".toList, [], data.map websiteOf⟩ := by
    have hs : ∀ s, (QJsonValue.String s).toString = s := fun _ => rfl
    have ho : ∀ o, (QJsonValue.Object o).toObject = o := fun _ => rfl
    simp only [processJsonObject, hne, htype, hdata, crawl_foldl, hs, ho, hk, hev]
    simp
  refine ⟨by rw [hw], by rw [hw]; simp [hn], by rw [hw]; rfl, ?_, by decide⟩
  rw [hw]
  have hc : (data.map websiteOf).map websiteReference.citation = data.map Prod.fst := by
    simp [List.map_map, Function.comp_def, websiteOf]
  simpa [hc] using hkeys

theorem processJsonObject_crawl_witness :
    (processJsonObject "processing".toList
        (some [("data".toList, QJsonValue.Object
                [("1".toList, QJsonValue.Object [("url".toList, QJsonValue.String "u".toList)]),
                 ("2".toList, QJsonValue.Null)]),
               ("type".toList, QJsonValue.String "crawl".toList)])).websites
      = [⟨"1".toList, [], "u".toList, []⟩, ⟨"2".toList, [], [], []⟩] :=
  (processJsonObject_crawl
    [("data".toList, QJsonValue.Object
        [("1".toList, QJsonValue.Object [("url".toList, QJsonValue.String "u".toList)]),
         ("2".toList, QJsonValue.Null)]),
     ("type".toList, QJsonValue.String "crawl".toList)]
    [("1".toList, QJsonValue.Object [("url".toList, QJsonValue.String "u".toList)]),
     ("2".toList, QJsonValue.Null)]
    2 rfl rfl (by decide) rfl).2.2.1

/-! ## Stream reader: lemmas -/

theorem split_append_sep (sep : Char) (l r : QString) (h : sep ∉ l) :
    split sep (l ++ sep :: r) = l :: split sep r := by
  induction l with
  | nil => simp [split]
  | cons c cs ih =>
    have hc : c ≠ sep := fun hcs => h (by simp [hcs])
    have hcs : sep ∉ cs := fun hm => h (List.mem_cons_of_mem _ hm)
    simp [split, hc, ih hcs]

theorem lineLoop_event (fromJson : QString → Option QJsonDocument) (line : QString)
    (rest : List QString) (event id : QString) (h : lineKey line = "event".toList) :
    lineLoop fromJson (line :: rest) (event, id)
      = lineLoop fromJson rest (trimmed (lineValue line), id) := by
  simp only [lineLoop, if_pos h]

theorem lineLoop_id (fromJson : QString → Option QJsonDocument) (line : QString)
    (rest : List QString) (event id : QString) (h : lineKey line = "id".toList) :
    lineLoop fromJson (line :: rest) (event, id)
      = lineLoop fromJson rest (event, trimmed (lineValue line)) := by
  have h1 : ¬ lineKey line = "event".toList := by rw [h]; decide
  simp only [lineLoop, if_neg h1, if_pos h]

theorem lineLoop_data_some (fromJson : QString → Option QJsonDocument) (line : QString)
    (rest : List QString) (event id : QString) (doc : QJsonDocument)
    (h : lineKey line = "data".toList) (hj : fromJson (lineValue line) = some doc) :
    lineLoop fromJson (line :: rest) (event, id)
      = (if (processJsonObject event (some doc.object)).type = "crawl".toList then
            Signal.crawledWebsite id (processJsonObject event (some doc.object)).websites
          else Signal.response id (processJsonObject event (some doc.object)).text event)
        :: lineLoop fromJson rest (event, id) := by
  have h1 : ¬ lineKey line = "event".toList := by rw [h]; decide
  have h2 : ¬ lineKey line = "id".toList := by rw [h]; decide
  simp only [lineLoop, if_neg h1, if_neg h2, if_pos h, hj]

theorem lineLoop_data_none_finish (fromJson : QString → Option QJsonDocument) (line : QString)
    (rest : List QString) (id : QString)
    (h : lineKey line = "data".toList) (hj : fromJson (lineValue line) = none) :
    lineLoop fromJson (line :: rest) ("finish".toList, id)
      = [Signal.response id [] "finish".toList] := by
  have h1 : ¬ lineKey line = "event".toList := by rw [h]; decide
  have h2 : ¬ lineKey line = "id".toList := by rw [h]; decide
  simp only [lineLoop, if_neg h1, if_neg h2, if_pos h, hj, if_true]

theorem lineLoop_data_none (fromJson : QString → Option QJsonDocument) (line : QString)
    (rest : List QString) (event id : QString)
    (h : lineKey line = "data".toList) (hj : fromJson (lineValue line) = none)
    (he : event ≠ "finish".toList) :
    lineLoop fromJson (line :: rest) (event, id) = lineLoop fromJson rest (event, id) := by
  have h1 : ¬ lineKey line = "event".toList := by rw [h]; decide
  have h2 : ¬ lineKey line = "id".toList := by rw [h]; decide
  simp only [lineLoop, if_neg h1, if_neg h2, if_pos h, hj, if_neg he]

theorem lineLoop_other (fromJson : QString → Option QJsonDocument) (line : QString)
    (rest : List QString) (event id : QString) (h1 : lineKey line ≠ "event".toList)
    (h2 : lineKey line ≠ "id".toList) (h3 : lineKey line ≠ "data".toList) :
    lineLoop fromJson (line :: rest) (event, id) = lineLoop fromJson rest (event, id) := by
  simp only [lineLoop, if_neg h1, if_neg h2, if_neg h3]

theorem lineVars_event (fromJson : QString → Option QJsonDocument) (line : QString)
    (rest : List QString) (event id : QString) (h : lineKey line = "event".toList) :
    lineVars fromJson (line :: rest) (event, id)
      = lineVars fromJson rest (trimmed (lineValue line), id) := by
  simp only [lineVars, if_pos h]

theorem lineVars_id (fromJson : QString → Option QJsonDocument) (line : QString)
    (rest : List QString) (event id : QString) (h : lineKey line = "id".toList) :
    lineVars fromJson (line :: rest) (event, id)
      = lineVars fromJson rest (event, trimmed (lineValue line)) := by
  have h1 : ¬ lineKey line = "event".toList := by rw [h]; decide
  simp only [lineVars, if_neg h1, if_pos h]

theorem lineVars_data_some (fromJson : QString → Option QJsonDocument) (line : QString)
    (rest : List QString) (event id : QString) (doc : QJsonDocument)
    (h : lineKey line = "data".toList) (hj : fromJson (lineValue line) = some doc) :
    lineVars fromJson (line :: rest) (event, id) = lineVars fromJson rest (event, id) := by
  have h1 : ¬ lineKey line = "event".toList := by rw [h]; decide
  have h2 : ¬ lineKey line = "id".toList := by rw [h]; decide
  simp only [lineVars, if_neg h1, if_neg h2, if_pos h, hj]

theorem lineVars_data_none_finish (fromJson : QString → Option QJsonDocument) (line : QString)
    (rest : List QString) (id : QString)
    (h : lineKey line = "data".toList) (hj : fromJson (lineValue line) = none) :
    lineVars fromJson (line :: rest) ("finish".toList, id) = none := by
  have h1 : ¬ lineKey line = "event".toList := by rw [h]; decide
  have h2 : ¬ lineKey line = "id".toList := by rw [h]; decide
  simp only [lineVars, if_neg h1, if_neg h2, if_pos h, hj, if_true]

theorem lineVars_data_none (fromJson : QString → Option QJsonDocument) (line : QString)
    (rest : List QString) (event id : QString)
    (h : lineKey line = "data".toList) (hj : fromJson (lineValue line) = none)
    (he : event ≠ "finish".toList) :
    lineVars fromJson (line :: rest) (event, id) = lineVars fromJson rest (event, id) := by
  have h1 : ¬ lineKey line = "event".toList := by rw [h]; decide
  have h2 : ¬ lineKey line = "id".toList := by rw [h]; decide
  simp only [lineVars, if_neg h1, if_neg h2, if_pos h, hj, if_neg he]

theorem lineVars_other (fromJson : QString → Option QJsonDocument) (line : QString)
    (rest : List QString) (event id : QString) (h1 : lineKey line ≠ "event".toList)
    (h2 : lineKey line ≠ "id".toList) (h3 : lineKey line ≠ "data".toList) :
    lineVars fromJson (line :: rest) (event, id) = lineVars fromJson rest (event, id) := by
  simp only [lineVars, if_neg h1, if_neg h2, if_neg h3]

theorem lineLoop_append (fromJson : QString → Option QJsonDocument) (l1 l2 : List QString)
    (vars : QString × QString) :
    lineLoop fromJson (l1 ++ l2) vars
      = lineLoop fromJson l1 vars ++
          match lineVars fromJson l1 vars with
          | some vars1 => lineLoop fromJson l2 vars1
          | none => [] := by
  induction l1 generalizing vars with
  | nil => simp [lineLoop, lineVars]
  | cons line rest ih =>
    obtain ⟨event, id⟩ := vars
    rw [List.cons_append]
    by_cases h1 : lineKey line = "event".toList
    · rw [lineLoop_event _ _ _ _ _ h1, lineLoop_event _ _ _ _ _ h1, lineVars_event _ _ _ _ _ h1]
      exact ih _
    by_cases h2 : lineKey line = "id".toList
    · rw [lineLoop_id _ _ _ _ _ h2, lineLoop_id _ _ _ _ _ h2, lineVars_id _ _ _ _ _ h2]
      exact ih _
    by_cases h3 : lineKey line = "data".toList
    · cases hj : fromJson (lineValue line) with
      | none =>
        by_cases h4 : event = "finish".toList
        · subst h4
          rw [lineLoop_data_none_finish _ _ _ _ h3 hj, lineLoop_data_none_finish _ _ _ _ h3 hj,
            lineVars_data_none_finish _ _ _ _ h3 hj]
          rfl
        · rw [lineLoop_data_none _ _ _ _ _ h3 hj h4, lineLoop_data_none _ _ _ _ _ h3 hj h4,
            lineVars_data_none _ _ _ _ _ h3 hj h4]
          exact ih _
      | some doc =>
        rw [lineLoop_data_some _ _ _ _ _ _ h3 hj, lineLoop_data_some _ _ _ _ _ _ h3 hj,
          lineVars_data_some _ _ _ _ _ _ h3 hj, ih]
        rfl
    · rw [lineLoop_other _ _ _ _ _ h1 h2 h3, lineLoop_other _ _ _ _ _ h1 h2 h3,
        lineVars_other _ _ _ _ _ h1 h2 h3]
      exact ih _

theorem lineVars_append (fromJson : QString → Option QJsonDocument) (l1 l2 : List QString)
    (vars : QString × QString) :
    lineVars fromJson (l1 ++ l2) vars
      = match lineVars fromJson l1 vars with
        | some vars1 => lineVars fromJson l2 vars1
        | none => none := by
  induction l1 generalizing vars with
  | nil => simp [lineVars]
  | cons line rest ih =>
    obtain ⟨event, id⟩ := vars
    rw [List.cons_append]
    by_cases h1 : lineKey line = "event".toList
    · rw [lineVars_event _ _ _ _ _ h1, lineVars_event _ _ _ _ _ h1]
      exact ih _
    by_cases h2 : lineKey line = "id".toList
    · rw [lineVars_id _ _ _ _ _ h2, lineVars_id _ _ _ _ _ h2]
      exact ih _
    by_cases h3 : lineKey line = "data".toList
    · cases hj : fromJson (lineValue line) with
      | none =>
        by_cases h4 : event = "finish".toList
        · subst h4
          rw [lineVars_data_none_finish _ _ _ _ h3 hj, lineVars_data_none_finish _ _ _ _ h3 hj]
        · rw [lineVars_data_none _ _ _ _ _ h3 hj h4, lineVars_data_none _ _ _ _ _ h3 hj h4]
          exact ih _
      | some doc =>
        rw [lineVars_data_some _ _ _ _ _ _ h3 hj, lineVars_data_some _ _ _ _ _ _ h3 hj]
        exact ih _
    · rw [lineVars_other _ _ _ _ _ h1 h2 h3, lineVars_other _ _ _ _ _ h1 h2 h3]
      exact ih _

theorem lineLoop_blank_line (fromJson : QString → Option QJsonDocument)
    (vars : QString × QString) : lineLoop fromJson [[]] vars = [] := by
  obtain ⟨event, id⟩ := vars
  rw [lineLoop_other _ _ _ _ _ (by decide) (by decide) (by decide)]
  rfl

theorem lineKey_event (v : QString) : lineKey ("event:".toList ++ v) = "event".toList := by
  have h : "event:".toList ++ v = 'e' :: 'v' :: 'e' :: 'n' :: 't' :: ':' :: v := rfl
  rw [h]
  simp [lineKey, indexOf, mid, List.indexOf_cons]

theorem lineValue_event (v : QString) : lineValue ("event:".toList ++ v) = v := by
  have h : "event:".toList ++ v = 'e' :: 'v' :: 'e' :: 'n' :: 't' :: ':' :: v := rfl
  rw [h]
  simp [lineValue, indexOf, mid, List.indexOf_cons]

theorem lineKey_id (v : QString) : lineKey ("id:".toList ++ v) = "id".toList := by
  have h : "id:".toList ++ v = 'i' :: 'd' :: ':' :: v := rfl
  rw [h]
  simp [lineKey, indexOf, mid, List.indexOf_cons]

theorem lineValue_id (v : QString) : lineValue ("id:".toList ++ v) = v := by
  have h : "id:".toList ++ v = 'i' :: 'd' :: ':' :: v := rfl
  rw [h]
  simp [lineValue, indexOf, mid, List.indexOf_cons]

theorem lineKey_data (v : QString) : lineKey ("data:".toList ++ v) = "data".toList := by
  have h : "data:".toList ++ v = 'd' :: 'a' :: 't' :: 'a' :: ':' :: v := rfl
  rw [h]
  simp [lineKey, indexOf, mid, List.indexOf_cons]

theorem lineValue_data (v : QString) : lineValue ("data:".toList ++ v) = v := by
  have h : "data:".toList ++ v = 'd' :: 'a' :: 't' :: 'a' :: ':' :: v := rfl
  rw [h]
  simp [lineValue, indexOf, mid, List.indexOf_cons]

theorem text_no_break (l : SSELine) (h : '\n' ∉ l.value) : '\n' ∉ l.text := by
  cases l with
  | event v =>
    have hv : '\n' ∉ v := h
    simp only [SSELine.text, List.mem_append, not_or]
    exact ⟨by decide, hv⟩
  | id v =>
    have hv : '\n' ∉ v := h
    simp only [SSELine.text, List.mem_append, not_or]
    exact ⟨by decide, hv⟩
  | data v =>
    have hv : '\n' ∉ v := h
    simp only [SSELine.text, List.mem_append, not_or]
    exact ⟨by decide, hv⟩
  | blank => simp [SSELine.text]

theorem split_streamText (s : List SSELine) (h : ∀ l ∈ s, '\n' ∉ l.value) :
    split '\n' (streamText s) = s.map SSELine.text ++ [[]] := by
  induction s with
  | nil => simp [streamText, split]
  | cons l rest ih =>
    have hl : '\n' ∉ l.text := text_no_break l (h l (by simp))
    have hr : ∀ l ∈ rest, '\n' ∉ l.value := fun x hx => h x (List.mem_cons_of_mem _ hx)
    have ih2 := ih hr
    simp only [streamText] at ih2 ⊢
    simp only [List.map_cons, List.flatten_cons, List.append_assoc, List.singleton_append,
      List.cons_append]
    rw [split_append_sep _ _ _ hl, List.nil_append, ih2]

theorem wellFormed_value (fromJson : QString → Option QJsonDocument) (s : List SSELine)
    (h : wellFormed fromJson s = true) : ∀ l ∈ s, '\n' ∉ l.value := by
  intro l hl
  simp only [wellFormed, List.all_eq_true] at h
  have := h l hl
  simp only [Bool.and_eq_true, Bool.not_eq_true'] at this
  have h1 := this.1
  intro hm
  have h2 : List.contains l.value '\n' = true := List.elem_iff.2 hm
  rw [h2] at h1
  exact Bool.noConfusion h1

theorem wellFormed_data (fromJson : QString → Option QJsonDocument) (s : List SSELine)
    (h : wellFormed fromJson s = true) (v : QString) (hv : SSELine.data v ∈ s) :
    ∃ doc, fromJson v = some doc := by
  simp only [wellFormed, List.all_eq_true] at h
  have := h _ hv
  simp only [Bool.and_eq_true] at this
  exact Option.isSome_iff_exists.1 this.2

theorem wellFormed_append (fromJson : QString → Option QJsonDocument) (s1 s2 : List SSELine) :
    wellFormed fromJson (s1 ++ s2) = (wellFormed fromJson s1 && wellFormed fromJson s2) := by
  simp [wellFormed, List.all_append]

theorem wellFormed_cons (fromJson : QString → Option QJsonDocument) (l : SSELine)
    (s : List SSELine) (h : wellFormed fromJson (l :: s) = true) :
    wellFormed fromJson s = true := by
  simp only [wellFormed, List.all_cons, Bool.and_eq_true] at h ⊢
  exact h.2

theorem lineVars_wellFormed (fromJson : QString → Option QJsonDocument) (s : List SSELine)
    (h : wellFormed fromJson s = true) (vars : QString × QString) :
    ∃ vars1, lineVars fromJson (s.map SSELine.text) vars = some vars1 := by
  induction s generalizing vars with
  | nil => exact ⟨vars, rfl⟩
  | cons l rest ih =>
    obtain ⟨event, id⟩ := vars
    have hr := wellFormed_cons fromJson l rest h
    cases l with
    | event v =>
      simp only [List.map_cons, SSELine.text]
      rw [lineVars_event _ _ _ _ _ (lineKey_event v)]
      exact ih hr _
    | id v =>
      simp only [List.map_cons, SSELine.text]
      rw [lineVars_id _ _ _ _ _ (lineKey_id v)]
      exact ih hr _
    | data v =>
      obtain ⟨doc, hdoc⟩ := wellFormed_data fromJson _ h v (by simp)
      simp only [List.map_cons, SSELine.text]
      rw [lineVars_data_some _ _ _ _ _ doc (lineKey_data v) (by rw [lineValue_data]; exact hdoc)]
      exact ih hr _
    | blank =>
      simp only [List.map_cons, SSELine.text]
      rw [lineVars_other _ _ _ _ _ (by decide) (by decide) (by decide)]
      exact ih hr _

theorem lineLoop_statesEventId (fromJson : QString → Option QJsonDocument) (s : List SSELine)
    (seenEvent seenId : Bool) (h : statesEventId s seenEvent seenId = true)
    (e i e1 i1 : QString) (he : seenEvent = true → e = e1) (hi : seenId = true → i = i1) :
    lineLoop fromJson (s.map SSELine.text) (e, i)
      = lineLoop fromJson (s.map SSELine.text) (e1, i1) := by
  induction s generalizing seenEvent seenId e i e1 i1 with
  | nil => rfl
  | cons l rest ih =>
    cases l with
    | event v =>
      simp only [List.map_cons, SSELine.text]
      rw [lineLoop_event _ _ _ _ _ (lineKey_event v), lineLoop_event _ _ _ _ _ (lineKey_event v)]
      exact ih true seenId h _ _ _ _ (fun _ => rfl) hi
    | id v =>
      simp only [List.map_cons, SSELine.text]
      rw [lineLoop_id _ _ _ _ _ (lineKey_id v), lineLoop_id _ _ _ _ _ (lineKey_id v)]
      exact ih seenEvent true h _ _ _ _ he (fun _ => rfl)
    | data v =>
      simp only [statesEventId, Bool.and_eq_true] at h
      rw [he h.1, hi h.2]
    | blank =>
      simp only [List.map_cons, SSELine.text]
      rw [lineLoop_other _ _ _ _ _ (by decide) (by decide) (by decide),
        lineLoop_other _ _ _ _ _ (by decide) (by decide) (by decide)]
      exact ih seenEvent seenId h _ _ _ _ he hi

theorem readyRead_streamText (fromJson : QString → Option QJsonDocument) (s : List SSELine)
    (h : wellFormed fromJson s = true) :
    readyRead fromJson false (streamText s) = lineLoop fromJson (s.map SSELine.text) ([], []) := by
  simp only [readyRead, Bool.false_eq_true, if_false]
  rw [split_streamText s (wellFormed_value fromJson s h), lineLoop_append]
  cases lineVars fromJson (s.map SSELine.text) ([], []) with
  | none => simp
  | some vars1 => simp [lineLoop_blank_line]

/-! ## Stream reader: the claims -/

/-- C1, as the claim states it, fails: the well-formed stream `event:add`, `id:1`,
`data:{"text":"hi"}` emits `response("1", "hi", "add")` when it is read as one
chunk; cut after the id line, its second chunk is read with `event` and `id`
empty and the two chunks emit `response("", "", "")`. -/
theorem readyRead_cut_counterexample :
    wellFormed sampleFromJson cutStream = true
      ∧ "event:add\nid:1\n".toList ++ "data:\x7b\"text\":\"hi\"\x7d\n".toList = streamText cutStream
      ∧ readyRead sampleFromJson false (streamText cutStream)
          = [Signal.response "1".toList "hi".toList "add".toList]
      ∧ readyRead sampleFromJson false "event:add\nid:1\n".toList
            ++ readyRead sampleFromJson false "data:\x7b\"text\":\"hi\"\x7d\n".toList
          = [Signal.response [] [] []]
      ∧ readyRead sampleFromJson false "event:add\nid:1\n".toList
            ++ readyRead sampleFromJson false "data:\x7b\"text\":\"hi\"\x7d\n".toList
          ≠ readyRead sampleFromJson false (streamText cutStream) := by
  decide

/-- C1, amended: the reader starts every chunk with `event` and `id` empty, so for a
well-formed stream cut at a line boundary into two consecutive chunks, the
chunks emit what the lines of the first and the lines of the second emit, each
from empty `event` and `id`; this is the sequence the whole stream emits as one
chunk whenever the second chunk states its event and its id before its first
data line. -/
theorem readyRead_cut (fromJson : QString → Option QJsonDocument) (s1 s2 : List SSELine)
    (hwf : wellFormed fromJson (s1 ++ s2) = true) :
    streamText (s1 ++ s2) = streamText s1 ++ streamText s2
      ∧ readyRead fromJson false (streamText s1) ++ readyRead fromJson false (streamText s2)
        = lineLoop fromJson (s1.map SSELine.text) ([], [])
            ++ lineLoop fromJson (s2.map SSELine.text) ([], [])
      ∧ (statesEventId s2 false false = true →
          readyRead fromJson false (streamText s1) ++ readyRead fromJson false (streamText s2)
            = readyRead fromJson false (streamText (s1 ++ s2))) := by
  have hwf2 := hwf
  rw [wellFormed_append, Bool.and_eq_true] at hwf2
  have h1 := readyRead_streamText fromJson s1 hwf2.1
  have h2 := readyRead_streamText fromJson s2 hwf2.2
  refine ⟨by simp [streamText], by rw [h1, h2], fun hs => ?_⟩
  rw [h1, h2, readyRead_streamText fromJson _ hwf, List.map_append, lineLoop_append]
  obtain ⟨⟨e, i⟩, hv⟩ := lineVars_wellFormed fromJson s1 hwf2.1 ([], [])
  rw [hv]
  simp only
  rw [lineLoop_statesEventId fromJson s2 false false hs e i [] [] (by simp) (by simp)]

theorem readyRead_cut_witness :
    readyRead sampleFromJson false (streamText cutStream)
        ++ readyRead sampleFromJson false (streamText cutStream)
      = readyRead sampleFromJson false (streamText (cutStream ++ cutStream)) :=
  (readyRead_cut sampleFromJson cutStream cutStream (by decide)).2.2 (by decide)

/-- C2: when a chunk holds a data line that fails to parse as JSON and is reached
with the event `finish`, the chunk emits what the lines before that line emit,
then the one record `response(id, "", "finish")`, and nothing for any later
line of the chunk. -/
theorem readyRead_malformed_finish (fromJson : QString → Option QJsonDocument)
    (chunk : QString) (pre post : List QString) (line id : QString)
    (hsplit : split '\n' chunk = pre ++ line :: post)
    (hvars : lineVars fromJson pre ([], []) = some ("finish".toList, id))
    (hkey : lineKey line = "data".toList) (hbad : fromJson (lineValue line) = none) :
    readyRead fromJson false chunk
      = lineLoop fromJson pre ([], []) ++ [Signal.response id [] "finish".toList] := by
  simp only [readyRead, Bool.false_eq_true, if_false]
  rw [hsplit, lineLoop_append, hvars]
  simp only
  rw [lineLoop_data_none_finish _ _ _ _ hkey hbad]

theorem readyRead_malformed_finish_witness :
    readyRead sampleFromJson false
        "event:add\ndata:\x7b\"text\":\"hi\"\x7d\nevent:finish\nid:7\ndata:oops\nevent:add\ndata:\x7b\"text\":\"hi\"\x7d".toList
      = lineLoop sampleFromJson ["event:add".toList, "data:\x7b\"text\":\"hi\"\x7d".toList,
            "event:finish".toList, "id:7".toList] ([], [])
          ++ [Signal.response "7".toList [] "finish".toList] :=
  readyRead_malformed_finish sampleFromJson _
    ["event:add".toList, "data:\x7b\"text\":\"hi\"\x7d".toList, "event:finish".toList,
      "id:7".toList]
    ["event:add".toList, "data:\x7b\"text\":\"hi\"\x7d".toList]
    "data:oops".toList "7".toList (by decide) (by decide) (by decide) rfl

/-- C3: when a chunk holds a data line that fails to parse as JSON and is reached
with an event other than `finish`, the line emits nothing and the lines after
it are still read: the chunk emits exactly what the same lines without that
line emit. -/
theorem readyRead_malformed_skip (fromJson : QString → Option QJsonDocument)
    (chunk : QString) (pre post : List QString) (line event id : QString)
    (hsplit : split '\n' chunk = pre ++ line :: post)
    (hvars : lineVars fromJson pre ([], []) = some (event, id))
    (hevent : event ≠ "finish".toList)
    (hkey : lineKey line = "data".toList) (hbad : fromJson (lineValue line) = none) :
    readyRead fromJson false chunk = lineLoop fromJson (pre ++ post) ([], [])
      ∧ (∀ chunk1, split '\n' chunk1 = pre ++ post →
          readyRead fromJson false chunk = readyRead fromJson false chunk1)
      ∧ (pre ++ post = [] → readyRead fromJson false chunk = readyRead fromJson false []) := by
  have h : readyRead fromJson false chunk = lineLoop fromJson (pre ++ post) ([], []) := by
    simp only [readyRead, Bool.false_eq_true, if_false]
    rw [hsplit, lineLoop_append, lineLoop_append, hvars]
    simp only
    rw [lineLoop_data_none _ _ _ _ _ hkey hbad hevent]
  refine ⟨h, fun chunk1 h1 => ?_, fun h0 => ?_⟩
  · rw [h]
    simp only [readyRead, Bool.false_eq_true, if_false]
    rw [h1]
  · rw [h, h0]
    simp only [readyRead, Bool.false_eq_true, if_false, split]
    rw [lineLoop_blank_line]
    rfl

theorem readyRead_malformed_skip_witness :
    readyRead sampleFromJson false
        "event:add\nid:7\ndata:oops\ndata:\x7b\"text\":\"hi\"\x7d".toList
      = readyRead sampleFromJson false "event:add\nid:7\ndata:\x7b\"text\":\"hi\"\x7d".toList :=
  (readyRead_malformed_skip sampleFromJson _
    ["event:add".toList, "id:7".toList] ["data:\x7b\"text\":\"hi\"\x7d".toList]
    "data:oops".toList "add".toList "7".toList
    (by decide) (by decide) (by decide) (by decide) rfl).2.1 _ (by decide)

/-! ## Event parser: keyword, add, finish and the empty Entry -/

theorem keyword_foldl (strings : List QString) (keys : QString) :
    (strings.map QJsonValue.String).foldl
        (fun keys key => keys ++ key.toString ++ " ".toList) keys
      = keys ++ (strings.map fun x => x ++ " ".toList).flatten := by
  induction strings generalizing keys with
  | nil => simp
  | cons x rest ih =>
    simp only [List.map_cons, List.foldl_cons, ih, List.flatten_cons]
    simp [QJsonValue.toString, List.append_assoc]

theorem flatten_append_sep (sep : QString) (strings : List QString) (h : strings ≠ []) :
    (strings.map fun x => x ++ sep).flatten = List.intercalate sep strings ++ sep := by
  induction strings with
  | nil => exact absurd rfl h
  | cons x rest ih =>
    cases rest with
    | nil => simp [List.intercalate]
    | cons y rest2 =>
      have ih2 := ih (by simp)
      simp only [List.map_cons, List.flatten_cons] at ih2 ⊢
      rw [ih2]
      simp [List.intercalate, List.intersperse, List.append_assoc]

theorem trimmed_append_space (s : QString) : trimmed (s ++ " ".toList) = trimmed s := by
  have h : s ++ " ".toList = s ++ [' '] := rfl
  rw [h]
  simp only [trimmed]
  rw [List.rdropWhile_concat_pos _ _ _ (by decide)]

theorem trimmed_keys (strings : List QString) :
    trimmed (strings.map fun x => x ++ " ".toList).flatten
      = trimmed (List.intercalate " ".toList strings) := by
  cases strings with
  | nil => rfl
  | cons x rest => rw [flatten_append_sep _ _ (by simp), trimmed_append_space]

/-- C11: for a `processing` payload whose `type` is `keyword` and whose `data` is a
list of strings, `processJsonObject` returns an Entry of kind `keyword`, without
websites, whose text is the strings joined by single spaces and then trimmed;
for `["a","b","c"]` the text is `a b c`, for the empty list the empty string. -/
theorem processJsonObject_keyword (obj : QJsonObject) (strings : List QString)
    (htype : obj.value "type".toList = QJsonValue.String "keyword".toList)
    (hdata : obj.value "data".toList = QJsonValue.Array (strings.map QJsonValue.String)) :
    processJsonObject "processing".toList (some obj)
        = ⟨"keyword".toList, trimmed (List.intercalate " ".toList strings), []⟩
      ∧ processJsonObject "processing".toList
          (some [("data".toList, QJsonValue.Array
              [QJsonValue.String "a".toList, QJsonValue.String "b".toList,
               QJsonValue.String "c".toList]),
            ("type".toList, QJsonValue.String "keyword".toList)])
          = ⟨"keyword".toList, "a b c".toList, []⟩
      ∧ processJsonObject "processing".toList
          (some [("data".toList, QJsonValue.Array []),
            ("type".toList, QJsonValue.String "keyword".toList)])
          = ⟨"keyword".toList, [], []⟩ := by
  refine ⟨?_, by decide, by decide⟩
  have hne := value_ne_undefined_nonempty obj _ _ htype
  have hev : ("processing".toList = "add".toList) = False := by decide
  have hs : ∀ s, (QJsonValue.String s).toString = s := fun _ => rfl
  have ha : ∀ a, (QJsonValue.Array a).toArray = a := fun _ => rfl
  simp only [processJsonObject, hne, htype, hdata, hs, ha, hev, keyword_foldl, List.nil_append,
    trimmed_keys]
  simp

theorem processJsonObject_keyword_witness :
    processJsonObject "processing".toList
        (some [("data".toList, QJsonValue.Array (["x y".toList, " z ".toList].map
            QJsonValue.String)),
          ("type".toList, QJsonValue.String "keyword".toList)])
      = ⟨"keyword".toList,
          trimmed (List.intercalate " ".toList ["x y".toList, " z ".toList]), []⟩ :=
  (processJsonObject_keyword
    [("data".toList, QJsonValue.Array (["x y".toList, " z ".toList].map QJsonValue.String)),
     ("type".toList, QJsonValue.String "keyword".toList)]
    ["x y".toList, " z ".toList] rfl rfl).1

/-- C12: for a payload object that is not empty, `processJsonObject` maps the event
`add` to an Entry of kind `text` and the event `finish` to an Entry of kind
`finish`, both with the string of the payload's member `text` as text (the
empty string when the payload has no member `text` that is a string) and
without websites. -/
theorem processJsonObject_add_finish (obj : QJsonObject) (hne : obj ≠ []) :
    processJsonObject "add".toList (some obj)
        = ⟨"text".toList, (obj.value "text".toList).toString, []⟩
      ∧ processJsonObject "finish".toList (some obj)
        = ⟨"finish".toList, (obj.value "text".toList).toString, []⟩
      ∧ ((∀ s, obj.value "text".toList ≠ QJsonValue.String s) →
          (obj.value "text".toList).toString = []) := by
  have he : obj.isEmpty = false := by
    cases obj with
    | nil => exact absurd rfl hne
    | cons a rest => rfl
  refine ⟨?_, ?_, ?_⟩
  · simp [processJsonObject, he]
  · have h1 : ("finish".toList = "add".toList) = False := by decide
    have h2 : ("finish".toList = "processing".toList) = False := by decide
    simp only [processJsonObject, he, h1, h2]
    simp
  · intro h
    cases hv : obj.value "text".toList with
    | String s => exact absurd hv (h s)
    | _ => rfl

theorem processJsonObject_add_finish_witness :
    processJsonObject "add".toList (some [("text".toList, QJsonValue.String "hi".toList)])
      = ⟨"text".toList, "hi".toList, []⟩ :=
  (processJsonObject_add_finish [("text".toList, QJsonValue.String "hi".toList)]
    (by simp)).1

/-- C13: `processJsonObject` returns the empty Entry (empty kind, empty text, no
websites) for every event when the payload pointer is null or the payload
object is empty, and for every payload when the event is none of `add`,
`processing` and `finish`. -/
theorem processJsonObject_empty :
    (∀ event, processJsonObject event none = ⟨[], [], []⟩)
      ∧ (∀ event, processJsonObject event (some []) = ⟨[], [], []⟩)
      ∧ (∀ event obj, event ≠ "add".toList → event ≠ "processing".toList →
          event ≠ "finish".toList → processJsonObject event obj = ⟨[], [], []⟩) := by
  refine ⟨fun _ => rfl, fun _ => rfl, fun event obj h1 h2 h3 => ?_⟩
  cases obj with
  | none => rfl
  | some o =>
    simp only [processJsonObject, h1, h2, h3, if_false]
    simp

theorem processJsonObject_empty_witness :
    processJsonObject "ping".toList (some [("text".toList, QJsonValue.String "hi".toList)])
      = ⟨[], [], []⟩ :=
  processJsonObject_empty.2.2 _ _ (by decide) (by decide) (by decide)

/-! ## Request assembler: lemmas -/

theorem value_insert_self (o : QJsonObject) (key : QString) (v : QJsonValue) :
    (QJsonObject.insert o key v).value key = v := by
  induction o with
  | nil => simp [QJsonObject.insert, QJsonObject.value, List.lookup]
  | cons a rest ih =>
    obtain ⟨k, w⟩ := a
    simp only [QJsonObject.insert]
    split_ifs with h1 h2
    · simp [QJsonObject.value, List.lookup]
    · simp [QJsonObject.value, List.lookup]
    · have hk : (key == k) = false := by simpa using h2
      simp only [QJsonObject.value, List.lookup, hk] at ih ⊢
      exact ih

theorem value_insert_ne (o : QJsonObject) (key k2 : QString) (v : QJsonValue)
    (h : k2 ≠ key) : (QJsonObject.insert o key v).value k2 = o.value k2 := by
  have hk : (k2 == key) = false := by simpa using h
  induction o with
  | nil => simp [QJsonObject.insert, QJsonObject.value, List.lookup, hk]
  | cons a rest ih =>
    obtain ⟨k, w⟩ := a
    simp only [QJsonObject.insert]
    split_ifs with h1 h2
    · simp [QJsonObject.value, List.lookup, hk]
    · subst h2
      simp [QJsonObject.value, List.lookup, hk]
    · simp only [QJsonObject.value, List.lookup] at ih ⊢
      cases hkk : (k2 == k) with
      | true => rfl
      | false => exact ih

theorem appendChunks_eq (context : QString) (chunks : QJsonArray) :
    appendChunks context chunks
      = context ++ (chunks.map fun chunk =>
          (chunk.toObject.value "fileName".toList).toString ++ ['\n']
            ++ (chunk.toObject.value "content".toList).toString ++ "\n\n".toList).flatten := by
  induction chunks generalizing context with
  | nil => simp [appendChunks]
  | cons c rest ih =>
    simp only [appendChunks, List.foldl_cons] at ih ⊢
    rw [ih]
    simp [List.append_assoc]

theorem assembleCommand_command (d : AskApiPrivate) (parseFile : List QString → QJsonArray)
    (talkId : QString) (jsonObject : QJsonObject)
    (h : jsonObject.value "command".toList = QJsonValue.Undefined) :
    (d.referenceFiles ≠ [] →
        (assembleCommand d parseFile talkId jsonObject).value "command".toList
          = QJsonValue.String "file_augment".toList)
      ∧ (d.referenceFiles = [] → d.networkEnabled = true →
        (assembleCommand d parseFile talkId jsonObject).value "command".toList
          = QJsonValue.String "online_search".toList)
      ∧ (d.referenceFiles = [] → d.networkEnabled = false →
        (assembleCommand d parseFile talkId jsonObject).value "command".toList
          = QJsonValue.Undefined) := by
  have ht : "command".toList ≠ "talkId".toList := by decide
  have hf : "command".toList ≠ "files".toList := by decide
  refine ⟨fun hr => ?_, fun hr hn => ?_, fun hr hn => ?_⟩
  · have he : d.referenceFiles.isEmpty = false := by
      cases hd : d.referenceFiles with
      | nil => exact absurd hd hr
      | cons a l => rfl
    cases htk : talkId.isEmpty with
    | true =>
      simp only [assembleCommand, he, htk, Bool.not_true, Bool.not_false, Bool.false_eq_true,
        if_true, if_false]
      rw [value_insert_ne _ _ _ _ hf, value_insert_self]
    | false =>
      simp only [assembleCommand, he, htk, Bool.not_true, Bool.not_false, Bool.false_eq_true,
        if_true, if_false]
      rw [value_insert_ne _ _ _ _ ht, value_insert_ne _ _ _ _ hf, value_insert_self]
  · cases htk : talkId.isEmpty with
    | true =>
      simp only [assembleCommand, hr, hn, htk, List.isEmpty_nil, Bool.not_true,
        Bool.not_false, Bool.false_eq_true, if_true, if_false]
      rw [value_insert_self]
    | false =>
      simp only [assembleCommand, hr, hn, htk, List.isEmpty_nil, Bool.not_true,
        Bool.not_false, Bool.false_eq_true, if_true, if_false]
      rw [value_insert_ne _ _ _ _ ht, value_insert_self]
  · cases htk : talkId.isEmpty with
    | true =>
      simp only [assembleCommand, hr, hn, htk, List.isEmpty_nil, Bool.not_true,
        Bool.not_false, Bool.false_eq_true, if_true, if_false]
      exact h
    | false =>
      simp only [assembleCommand, hr, hn, htk, List.isEmpty_nil, Bool.not_true,
        Bool.not_false, Bool.false_eq_true, if_true, if_false]
      rw [value_insert_ne _ _ _ _ ht, h]

theorem assembleCommand_other (d : AskApiPrivate) (parseFile : List QString → QJsonArray)
    (talkId : QString) (jsonObject : QJsonObject) (key : QString)
    (h1 : key ≠ "command".toList) (h2 : key ≠ "files".toList) (h3 : key ≠ "talkId".toList) :
    (assembleCommand d parseFile talkId jsonObject).value key = jsonObject.value key := by
  simp only [assembleCommand]
  split_ifs <;>
    simp only [value_insert_ne _ _ _ _ h1, value_insert_ne _ _ _ _ h2,
      value_insert_ne _ _ _ _ h3]

theorem assembleSSEChatBody_fst (d : AskApiPrivate) (currentProjectPath : QString)
    (query : QString → QString → Int → QJsonObject) (condaHasInstalled : Bool)
    (parseFile : List QString → QJsonArray)
    (prompt machineId : QString) (history : QJsonArray) (talkId : QString) :
    (assembleSSEChatBody d currentProjectPath query condaHasInstalled parseFile prompt
        machineId history talkId).1
      = if (d.codebaseEnabled && currentProjectPath != []) = true then
          if (!(((query currentProjectPath prompt 20).value "Chunks".toList).toArray).isEmpty)
              = true then
            Body.toJson (assembleCommand d parseFile talkId
              (chunkObject d prompt machineId history
                ((query currentProjectPath prompt 20).value "Chunks".toList).toArray))
          else if condaHasInstalled = true then Body.empty
          else Body.toJson (assembleCommand d parseFile talkId
            (chatObject d prompt machineId history))
        else Body.toJson (assembleCommand d parseFile talkId
          (chatObject d prompt machineId history)) := by
  simp only [assembleSSEChatBody]
  split_ifs <;> rfl

theorem assembleSSEChatBody_snd (d : AskApiPrivate) (currentProjectPath : QString)
    (query : QString → QString → Int → QJsonObject) (condaHasInstalled : Bool)
    (parseFile : List QString → QJsonArray)
    (prompt machineId : QString) (history : QJsonArray) (talkId : QString) :
    (assembleSSEChatBody d currentProjectPath query condaHasInstalled parseFile prompt
        machineId history talkId).2
      = if (d.codebaseEnabled && currentProjectPath != []) = true then
          if (!(((query currentProjectPath prompt 20).value "Chunks".toList).toArray).isEmpty)
              = true then
            [AssembleAction.cleanHistoryMessage] ++
              (if ((query currentProjectPath prompt 20).value "Completed".toList).toBool
                  == false then
                [AssembleAction.notifyIndexing currentProjectPath]
              else [])
          else if condaHasInstalled = true then [AssembleAction.noChunksFounded]
          else []
        else [] := by
  simp only [assembleSSEChatBody]
  split_ifs <;> rfl

theorem chatObject_command (d : AskApiPrivate) (prompt machineId : QString)
    (history : QJsonArray) :
    (chatObject d prompt machineId history).value "command".toList = QJsonValue.Undefined := by
  simp only [chatObject]
  rw [value_insert_ne _ _ _ _ (by decide), value_insert_ne _ _ _ _ (by decide),
    value_insert_ne _ _ _ _ (by decide), value_insert_ne _ _ _ _ (by decide),
    value_insert_ne _ _ _ _ (by decide)]
  rfl

theorem chunkObject_command (d : AskApiPrivate) (prompt machineId : QString)
    (history chunks : QJsonArray) :
    (chunkObject d prompt machineId history chunks).value "command".toList
      = QJsonValue.Undefined := by
  simp only [chunkObject]
  rw [value_insert_ne _ _ _ _ (by decide), value_insert_ne _ _ _ _ (by decide),
    chatObject_command]

theorem assembleSSEChatBody_cases (d : AskApiPrivate) (currentProjectPath : QString)
    (query : QString → QString → Int → QJsonObject) (condaHasInstalled : Bool)
    (parseFile : List QString → QJsonArray)
    (prompt machineId : QString) (history : QJsonArray) (talkId : QString) :
    (assembleSSEChatBody d currentProjectPath query condaHasInstalled parseFile prompt
        machineId history talkId).1 = Body.empty
      ∨ ∃ jsonObject, jsonObject.value "command".toList = QJsonValue.Undefined
          ∧ (assembleSSEChatBody d currentProjectPath query condaHasInstalled parseFile prompt
              machineId history talkId).1
            = Body.toJson (assembleCommand d parseFile talkId jsonObject) := by
  rw [assembleSSEChatBody_fst]
  split_ifs
  · exact Or.inr ⟨_, chunkObject_command _ _ _ _ _, rfl⟩
  · exact Or.inl rfl
  · exact Or.inr ⟨_, chatObject_command _ _ _ _, rfl⟩
  · exact Or.inr ⟨_, chatObject_command _ _ _ _, rfl⟩

/-! ## Request assembler: the claims -/

/-- C14, as the claim states it, fails: with codebase augmentation enabled, the
project `p` active and no chunk found, `assembleSSEChatBody` returns a body
that is not empty and sends no signal when `condaHasInstalled()` is false, and
returns the empty body with the signal `noChunksFounded` when it is true. -/
theorem assembleSSEChatBody_fails_counterexample :
    (assembleSSEChatBody ⟨"lite".toList, "zh".toList, true, false, []⟩ "p".toList emptyQuery
        false (fun _ => []) "q".toList "m".toList [] []).1.isEmpty = false
      ∧ (assembleSSEChatBody ⟨"lite".toList, "zh".toList, true, false, []⟩ "p".toList emptyQuery
        false (fun _ => []) "q".toList "m".toList [] []).2 = []
      ∧ (assembleSSEChatBody ⟨"lite".toList, "zh".toList, true, false, []⟩ "p".toList emptyQuery
        true (fun _ => []) "q".toList "m".toList [] []).1.isEmpty = true
      ∧ (assembleSSEChatBody ⟨"lite".toList, "zh".toList, true, false, []⟩ "p".toList emptyQuery
        true (fun _ => []) "q".toList "m".toList [] []).2 = [AssembleAction.noChunksFounded] := by
  refine ⟨by rfl, by rfl, by rfl, by rfl⟩

/-- C14, amended: `assembleSSEChatBody` returns the empty body exactly when codebase
augmentation is enabled, a project is active, the index query returns no chunk
and `condaHasInstalled()` is true (the index backend is installed); it then
sends the signal `noChunksFounded` and nothing else, and in every other case
it returns a body that is not empty and does not send that signal. -/
theorem assembleSSEChatBody_fails_iff (d : AskApiPrivate) (currentProjectPath : QString)
    (query : QString → QString → Int → QJsonObject) (condaHasInstalled : Bool)
    (parseFile : List QString → QJsonArray)
    (prompt machineId : QString) (history : QJsonArray) (talkId : QString) :
    ((assembleSSEChatBody d currentProjectPath query condaHasInstalled parseFile prompt
          machineId history talkId).1.isEmpty = true
        ↔ (d.codebaseEnabled = true ∧ currentProjectPath ≠ []
            ∧ ((query currentProjectPath prompt 20).value "Chunks".toList).toArray = []
            ∧ condaHasInstalled = true))
      ∧ ((assembleSSEChatBody d currentProjectPath query condaHasInstalled parseFile prompt
          machineId history talkId).1.isEmpty = true →
          (assembleSSEChatBody d currentProjectPath query condaHasInstalled parseFile prompt
            machineId history talkId).2 = [AssembleAction.noChunksFounded])
      ∧ ((assembleSSEChatBody d currentProjectPath query condaHasInstalled parseFile prompt
          machineId history talkId).1.isEmpty = false →
          AssembleAction.noChunksFounded ∉
            (assembleSSEChatBody d currentProjectPath query condaHasInstalled parseFile prompt
              machineId history talkId).2) := by
  rw [assembleSSEChatBody_fst, assembleSSEChatBody_snd]
  generalize ((query currentProjectPath prompt 20).value "Chunks".toList).toArray = chunks
  generalize ((query currentProjectPath prompt 20).value "Completed".toList).toBool = completed
  by_cases hp : currentProjectPath = []
  · simp [hp, Body.isEmpty]
  · cases d.codebaseEnabled <;> cases chunks <;> cases condaHasInstalled <;> cases completed <;>
      simp [hp, Body.isEmpty]

theorem assembleSSEChatBody_fails_iff_witness :
    (assembleSSEChatBody ⟨[], [], true, true, ["a.cpp".toList]⟩ "p".toList emptyQuery true
        (fun _ => []) "q".toList [] [] "t".toList).2 = [AssembleAction.noChunksFounded] :=
  (assembleSSEChatBody_fails_iff ⟨[], [], true, true, ["a.cpp".toList]⟩ "p".toList emptyQuery
    true (fun _ => []) "q".toList [] [] "t".toList).2.1 (by rfl)

/-- C15, as the claim states it, fails: with chunks of the project merged into the
prompt, no reference file and network search enabled, the body holds the
command `online_search`. -/
theorem assembleSSEChatBody_command_counterexample :
    (⟨"lite".toList, "zh".toList, true, true, []⟩ : AskApiPrivate).referenceFiles = []
      ∧ ((sampleQuery "p".toList "q".toList 20).value "Chunks".toList).toArray ≠ []
      ∧ (((assembleSSEChatBody ⟨"lite".toList, "zh".toList, true, true, []⟩ "p".toList
            sampleQuery false (fun _ => []) "q".toList "m".toList [] []).1.object.value
          "prompt".toList).toString
        = "q".toList ++ kChunkInstruction ++ "f\nc\n\n".toList)
      ∧ (((assembleSSEChatBody ⟨"lite".toList, "zh".toList, true, true, []⟩ "p".toList
            sampleQuery false (fun _ => []) "q".toList "m".toList [] []).1.object.value
          "command".toList).toString
        = "online_search".toList) := by
  refine ⟨rfl, by simp [sampleQuery, QJsonObject.value, List.lookup, QJsonValue.toArray],
    by rfl, by rfl⟩

/-- C15, amended: in every request body `assembleSSEChatBody` produces, the
`command` is `file_augment` when reference files are attached; it is
`online_search` when no reference file is attached and network search is
enabled, whether or not chunks of the project were merged into the prompt;
in every other case the body has no `command`. -/
theorem assembleSSEChatBody_command (d : AskApiPrivate) (currentProjectPath : QString)
    (query : QString → QString → Int → QJsonObject) (condaHasInstalled : Bool)
    (parseFile : List QString → QJsonArray)
    (prompt machineId : QString) (history : QJsonArray) (talkId : QString)
    (hbody : (assembleSSEChatBody d currentProjectPath query condaHasInstalled parseFile prompt
      machineId history talkId).1.isEmpty = false) :
    (d.referenceFiles ≠ [] →
        (assembleSSEChatBody d currentProjectPath query condaHasInstalled parseFile prompt
            machineId history talkId).1.object.value "command".toList
          = QJsonValue.String "file_augment".toList)
      ∧ (d.referenceFiles = [] → d.networkEnabled = true →
        (assembleSSEChatBody d currentProjectPath query condaHasInstalled parseFile prompt
            machineId history talkId).1.object.value "command".toList
          = QJsonValue.String "online_search".toList)
      ∧ (d.referenceFiles = [] → d.networkEnabled = false →
        (assembleSSEChatBody d currentProjectPath query condaHasInstalled parseFile prompt
            machineId history talkId).1.object.value "command".toList
          = QJsonValue.Undefined) := by
  rcases assembleSSEChatBody_cases d currentProjectPath query condaHasInstalled parseFile
    prompt machineId history talkId with h | ⟨jsonObject, hc, h⟩
  · rw [h] at hbody
    exact absurd hbody (by simp [Body.isEmpty])
  · rw [h]
    exact assembleCommand_command d parseFile talkId jsonObject hc

theorem assembleSSEChatBody_command_witness :
    (assembleSSEChatBody ⟨[], [], false, true, ["a.cpp".toList]⟩ [] emptyQuery false
        (fun _ => []) "q".toList [] [] []).1.object.value "command".toList
      = QJsonValue.String "file_augment".toList :=
  (assembleSSEChatBody_command ⟨[], [], false, true, ["a.cpp".toList]⟩ [] emptyQuery false
    (fun _ => []) "q".toList [] [] [] (by rfl)).1 (by simp)

/-- C16, as the claim states it, fails: for the prompt `q` and the one chunk of file
`f` with content `c`, the prompt of the body is `q`, then the instruction, then
`f`, a line break, `c` and two line breaks; the instruction is not at its
start. -/
theorem assembleSSEChatBody_chunks_counterexample :
    ((assembleSSEChatBody ⟨"lite".toList, "zh".toList, true, false, []⟩ "p".toList
          sampleQuery false (fun _ => []) "q".toList "m".toList [] []).1.object.value
        "prompt".toList).toString
      = "q".toList ++ kChunkInstruction ++ "f\nc\n\n".toList
    ∧ ¬ kChunkInstruction <+:
      ((assembleSSEChatBody ⟨"lite".toList, "zh".toList, true, false, []⟩ "p".toList
          sampleQuery false (fun _ => []) "q".toList "m".toList [] []).1.object.value
        "prompt".toList).toString := by
  have h : ((assembleSSEChatBody ⟨"lite".toList, "zh".toList, true, false, []⟩ "p".toList
          sampleQuery false (fun _ => []) "q".toList "m".toList [] []).1.object.value
        "prompt".toList).toString
      = "q".toList ++ kChunkInstruction ++ "f\nc\n\n".toList := by rfl
  refine ⟨h, ?_⟩
  rw [h]
  decide

/-- C16, amended: with codebase augmentation enabled, a project active and a list of
returned chunks that is not empty, `assembleSSEChatBody` returns a body whose
`history` is the empty array, whatever history was passed in, and whose
`prompt` is the prompt passed in, followed by the fixed instruction string,
followed, for each chunk in the order returned, by its file name, a line
break, its content and two line breaks. -/
theorem assembleSSEChatBody_chunks (d : AskApiPrivate) (currentProjectPath : QString)
    (query : QString → QString → Int → QJsonObject) (condaHasInstalled : Bool)
    (parseFile : List QString → QJsonArray)
    (prompt machineId : QString) (history : QJsonArray) (talkId : QString)
    (hcb : d.codebaseEnabled = true) (hpath : currentProjectPath ≠ [])
    (hchunks : ((query currentProjectPath prompt 20).value "Chunks".toList).toArray ≠ []) :
    (assembleSSEChatBody d currentProjectPath query condaHasInstalled parseFile prompt
        machineId history talkId).1.isEmpty = false
      ∧ (assembleSSEChatBody d currentProjectPath query condaHasInstalled parseFile prompt
          machineId history talkId).1.object.value "history".toList = QJsonValue.Array []
      ∧ (assembleSSEChatBody d currentProjectPath query condaHasInstalled parseFile prompt
          machineId history talkId).1.object.value "prompt".toList
        = QJsonValue.String (prompt ++ kChunkInstruction ++
            ((((query currentProjectPath prompt 20).value "Chunks".toList).toArray).map
              fun chunk =>
                (chunk.toObject.value "fileName".toList).toString ++ ['\n']
                  ++ (chunk.toObject.value "content".toList).toString
                  ++ "\n\n".toList).flatten) := by
  have hne : (((query currentProjectPath prompt 20).value "Chunks".toList).toArray).isEmpty
      = false := by
    cases hq : ((query currentProjectPath prompt 20).value "Chunks".toList).toArray with
    | nil => exact absurd hq hchunks
    | cons a l => rfl
  have hp : (currentProjectPath != []) = true := by simpa using hpath
  have hb : (assembleSSEChatBody d currentProjectPath query condaHasInstalled parseFile prompt
        machineId history talkId).1
      = Body.toJson (assembleCommand d parseFile talkId
          (chunkObject d prompt machineId history
            ((query currentProjectPath prompt 20).value "Chunks".toList).toArray)) := by
    rw [assembleSSEChatBody_fst]
    simp only [hcb, hp, hne, Bool.and_self, Bool.not_false, if_true]
  rw [hb]
  refine ⟨rfl, ?_, ?_⟩
  · simp only [Body.object, chunkObject]
    rw [assembleCommand_other _ _ _ _ _ (by decide) (by decide) (by decide),
      value_insert_ne _ _ _ _ (by decide), value_insert_self]
  · simp only [Body.object, chunkObject]
    rw [assembleCommand_other _ _ _ _ _ (by decide) (by decide) (by decide),
      value_insert_self, appendChunks_eq]

theorem assembleSSEChatBody_chunks_witness :
    (assembleSSEChatBody ⟨[], [], true, true, []⟩ "p".toList sampleQuery true
        (fun _ => []) "q".toList [] [QJsonValue.Null] "t".toList).1.object.value
      "history".toList = QJsonValue.Array [] :=
  (assembleSSEChatBody_chunks ⟨[], [], true, true, []⟩ "p".toList sampleQuery true
    (fun _ => []) "q".toList [] [QJsonValue.Null] "t".toList rfl (by decide)
    (by simp [sampleQuery, QJsonObject.value, List.lookup, QJsonValue.toArray])).2.1

/-! ## Session store: the claims -/

theorem assembleDelSessionBody_foldl (talkIds : List QString) (ret : QString) :
    talkIds.foldl (fun ret talkId => ret ++ "\"".toList ++ talkId ++ "\"\n".toList) ret
      = ret ++ (talkIds.map fun talkId => "\"".toList ++ talkId ++ "\"\n".toList).flatten := by
  induction talkIds generalizing ret with
  | nil => simp
  | cons t rest ih =>
    simp only [List.foldl_cons, ih, List.map_cons, List.flatten_cons]
    simp [List.append_assoc]

/-- C17: `assembleDelSessionBody` writes an opening bracket and a line break, then
every identifier between double quotes followed by a line break, then a
closing bracket, and puts nothing else between two identifiers: for the
identifiers `a` and `b` the body is `[`, `"a"`, `"b"`, `]` on four lines, without
the comma a JSON array of two elements has. -/
theorem assembleDelSessionBody_no_separator :
    (∀ talkIds, assembleDelSessionBody talkIds
        = toLatin1 ("[\n".toList
            ++ (talkIds.map fun talkId => "\"".toList ++ talkId ++ "\"\n".toList).flatten
            ++ "]".toList))
      ∧ assembleDelSessionBody ["a".toList, "b".toList] = "[\n\"a\"\n\"b\"\n]".toList
      ∧ ',' ∉ assembleDelSessionBody ["a".toList, "b".toList] := by
  refine ⟨fun talkIds => ?_, by decide, by decide⟩
  simp only [assembleDelSessionBody, assembleDelSessionBody_foldl]

theorem toInt_eq_success (v : QJsonValue) :
    v.toInt = kCode_Success ↔ v = QJsonValue.Double 200 := by
  constructor
  · intro h
    cases v with
    | Double d =>
      simp only [QJsonValue.toInt, kCode_Success] at h
      split_ifs at h with hc
      · have hd : d = 200 := Rat.ext h hc.1
        rw [hd]
      · exact absurd h (by decide)
    | Null => simp [QJsonValue.toInt, kCode_Success] at h
    | Bool b => simp [QJsonValue.toInt, kCode_Success] at h
    | String s => simp [QJsonValue.toInt, kCode_Success] at h
    | Array a => simp [QJsonValue.toInt, kCode_Success] at h
    | Object o => simp [QJsonValue.toInt, kCode_Success] at h
    | Undefined => simp [QJsonValue.toInt, kCode_Success] at h
  · intro h
    rw [h]
    decide

/-- C18: for a reply received without transport error, `postNewSession` emits
`sessionCreated` with the talk identifier it was called with and
`deleteSessions` emits `sessionDeleted` with the identifiers it was called
with, each with a success flag that is true exactly when the member `code` of
the envelope is the number 200; a reply that does not parse, an envelope
without `code`, and a `code` that is no integer give the flag false. -/
theorem session_success_flag (fromJson : QString → Option QJsonDocument)
    (talkId : QString) (talkIds : List QString) (response : QString) :
    ∃ success,
      postNewSessionFinished fromJson talkId false response
          = [SessionSignal.sessionCreated talkId success]
        ∧ deleteSessionsFinished fromJson talkIds false response
          = [SessionSignal.sessionDeleted talkIds success]
        ∧ (success = true
            ↔ (toJsonOBject fromJson response).value "code".toList = QJsonValue.Double 200)
        ∧ (fromJson response = none → success = false)
        ∧ ((toJsonOBject fromJson response).value "code".toList = QJsonValue.Undefined →
            success = false)
        ∧ (∀ s, (toJsonOBject fromJson response).value "code".toList = QJsonValue.String s →
            success = false)
        ∧ (∀ q : Rat, q.den ≠ 1 →
            (toJsonOBject fromJson response).value "code".toList = QJsonValue.Double q →
            success = false) := by
  refine ⟨((toJsonOBject fromJson response).value "code".toList).toInt == kCode_Success,
    rfl, rfl, ?_, ?_, ?_, ?_, ?_⟩
  · rw [beq_iff_eq]
    exact toInt_eq_success _
  · intro h
    simp only [toJsonOBject, h]
    rfl
  · intro h
    rw [h]
    rfl
  · intro s h
    rw [h]
    rfl
  · intro q hq h
    rw [h]
    simp only [QJsonValue.toInt, hq, false_and, if_false]
    rfl

theorem session_success_flag_witness :
    postNewSessionFinished sampleEnvelope "t".toList false "\x7b\"code\":200\x7d".toList
        = [SessionSignal.sessionCreated "t".toList true]
      ∧ deleteSessionsFinished sampleEnvelope ["t".toList, "u".toList] false
          "\x7b\"code\":\"200\"\x7d".toList
        = [SessionSignal.sessionDeleted ["t".toList, "u".toList] false] := by
  obtain ⟨b1, h1, _, h3, _⟩ :=
    session_success_flag sampleEnvelope "t".toList [] "\x7b\"code\":200\x7d".toList
  obtain ⟨b2, _, g2, _, _, _, g6, _⟩ :=
    session_success_flag sampleEnvelope [] ["t".toList, "u".toList]
      "\x7b\"code\":\"200\"\x7d".toList
  have e1 : b1 = true := h3.2 rfl
  have e2 : b2 = false := g6 "200".toList rfl
  rw [h1, g2, e1, e2]
  exact ⟨rfl, rfl⟩

/-- C19, as the claim states it, fails: `postNewSession` emits no signal for a reply
that completes with a transport error, and `getSessionList` emits no signal for
the envelope `{"code":500}`. -/
theorem session_failure_counterexample :
    postNewSessionFinished sampleEnvelope "t".toList true "\x7b\"code\":200\x7d".toList = []
      ∧ (toJsonOBject sampleEnvelope "\x7b\"code\":500\x7d".toList).value "code".toList
          = QJsonValue.Double 500
      ∧ getSessionListFinished sampleEnvelope false "\x7b\"code\":500\x7d".toList = [] := by
  refine ⟨by decide, rfl, by decide⟩

/-- C19, amended: for a reply received without transport error whose envelope has a
`code` other than the number 200, `postNewSession` emits `sessionCreated` and
`deleteSessions` emits `sessionDeleted`, each with the flag false, while
`getSessionList` and `getMessageList` emit no signal; for a request that
completes with a transport error none of the four emits a signal. -/
theorem session_failure (fromJson : QString → Option QJsonDocument)
    (talkId : QString) (talkIds : List QString) (response : QString) :
    ((toJsonOBject fromJson response).value "code".toList ≠ QJsonValue.Double 200 →
        postNewSessionFinished fromJson talkId false response
            = [SessionSignal.sessionCreated talkId false]
          ∧ deleteSessionsFinished fromJson talkIds false response
            = [SessionSignal.sessionDeleted talkIds false]
          ∧ getSessionListFinished fromJson false response = []
          ∧ getMessageListFinished fromJson false response = [])
      ∧ postNewSessionFinished fromJson talkId true response = []
      ∧ deleteSessionsFinished fromJson talkIds true response = []
      ∧ getSessionListFinished fromJson true response = []
      ∧ getMessageListFinished fromJson true response = [] := by
  refine ⟨fun h => ?_, rfl, rfl, rfl, rfl⟩
  have hne : ¬ ((toJsonOBject fromJson response).value "code".toList).toInt = kCode_Success :=
    fun hc => h ((toInt_eq_success _).1 hc)
  have hb : (((toJsonOBject fromJson response).value "code".toList).toInt == kCode_Success)
      = false := by simpa using hne
  simp only [postNewSessionFinished, deleteSessionsFinished, getSessionListFinished,
    getMessageListFinished, hb, Bool.false_eq_true, if_false]
  simp

theorem session_failure_witness :
    postNewSessionFinished sampleEnvelope "t".toList false "oops".toList
      = [SessionSignal.sessionCreated "t".toList false] :=
  ((session_failure sampleEnvelope "t".toList [] "oops".toList).1
    (by simp [toJsonOBject, sampleEnvelope, QJsonObject.value])).1

/-! ## Repeated extraction: the claim -/

theorem drain_nil (calls : Nat) : drain calls [] = ([], []) := by
  cases calls <;> simp [drain]

theorem drain_succ (calls : Nat) (generateCache : List QString) (h : generateCache ≠ []) :
    drain (calls + 1) generateCache
      = ((extractSingleLine generateCache).1 :: (drain calls (extractSingleLine generateCache).2).1,
         (drain calls (extractSingleLine generateCache).2).2) := by
  have he : generateCache.isEmpty = false := by
    cases generateCache with
    | nil => exact absurd rfl h
    | cons a l => rfl
  simp only [drain, he, Bool.false_eq_true, if_false]

theorem filter_blanks (k : Nat) :
    (List.replicate k ([] : QString)).filter (fun x => !x.isEmpty) = [] := by
  induction k with
  | zero => rfl
  | succ k ih => simp [List.replicate_succ, ih]

theorem filter_all_blank (lines : List QString) (h : ∀ x ∈ lines, x = []) :
    lines.filter (fun x => !x.isEmpty) = [] := by
  induction lines with
  | nil => rfl
  | cons a l ih =>
    have ha : a = [] := h a (by simp)
    have hl := ih fun x hx => h x (List.mem_cons_of_mem _ hx)
    simp [ha, hl]

theorem filter_blanks_line (k : Nat) (L : QString) (rest : List QString) (hL : L ≠ []) :
    (List.replicate k [] ++ L :: rest).filter (fun x => !x.isEmpty)
      = L :: rest.filter (fun x => !x.isEmpty) := by
  have hL2 : L.isEmpty = false := by
    cases L with
    | nil => exact absurd rfl hL
    | cons a l => rfl
  rw [List.filter_append, filter_blanks, List.nil_append, List.filter_cons]
  simp [hL2]

theorem extractSingleLine_suffix (generateCache : List QString) :
    (extractSingleLine generateCache).2 <:+ generateCache := by
  rcases blanks_or_line generateCache with ⟨k, hk⟩ | ⟨k, L, rest, hL, hk⟩
  · subst hk
    rw [extractSingleLine_blanks]
    exact List.nil_suffix
  · subst hk
    rw [extractSingleLine_line k L rest hL]
    split_ifs
    · exact List.nil_suffix
    · exact ⟨List.replicate k [] ++ [L], by simp⟩

theorem extractSingleLine_shorter (generateCache : List QString) (h : generateCache ≠ []) :
    (extractSingleLine generateCache).2.length < generateCache.length := by
  rcases blanks_or_line generateCache with ⟨k, hk⟩ | ⟨k, L, rest, hL, hk⟩
  · subst hk
    rw [extractSingleLine_blanks]
    cases k with
    | zero => exact absurd rfl h
    | succ k => simp
  · subst hk
    rw [extractSingleLine_line k L rest hL]
    split_ifs
    · simp
    · simp only [List.length_append, List.length_cons, List.length_replicate]
      omega

theorem drain_releases (calls : Nat) (generateCache : List QString)
    (h : generateCache.length ≤ calls) :
    (drain calls generateCache).2 = []
      ∧ (drain calls generateCache).1.length ≤ generateCache.length
      ∧ List.Forall₂ Releases ((drain calls generateCache).1.filter fun x => !x.isEmpty)
          (generateCache.filter fun x => !x.isEmpty) := by
  induction calls generalizing generateCache with
  | zero =>
    have h0 : generateCache = [] := List.length_eq_zero.1 (Nat.le_zero.1 h)
    subst h0
    exact ⟨rfl, Nat.le_refl _, List.Forall₂.nil⟩
  | succ calls ih =>
    rcases blanks_or_line generateCache with ⟨k, hk⟩ | ⟨k, L, rest, hL, hk⟩
    · subst hk
      cases k with
      | zero =>
        rw [List.replicate_zero, drain_nil]
        exact ⟨rfl, Nat.le_refl _, List.Forall₂.nil⟩
      | succ k =>
        rw [drain_succ _ _ (by simp [List.replicate_succ]), extractSingleLine_blanks, drain_nil,
          filter_blanks]
        refine ⟨rfl, by simp, ?_⟩
        simp
    · subst hk
      have hL2 : L.isEmpty = false := by
        cases L with
        | nil => exact absurd rfl hL
        | cons a l => rfl
      rw [drain_succ _ _ (by simp), extractSingleLine_line k L rest hL, filter_blanks_line k L rest hL]
      by_cases hl : leftAllEmpty rest = true
      · simp only [hl, if_true, drain_nil]
        refine ⟨trivial, ?_, ?_⟩
        · simp only [List.length_cons, List.length_nil, List.length_append,
            List.length_replicate]
          omega
        rw [filter_all_blank rest ((leftAllEmpty_iff rest).1 hl)]
        have hc : (List.replicate k '\n' ++ L ++ ['\n', '\n']).isEmpty = false := by
          cases k <;> cases L <;> simp_all [List.replicate_succ]
        simp only [List.filter_cons, hc, Bool.not_false, if_true, List.filter_nil]
        exact List.Forall₂.cons ⟨k, 2, rfl, Or.inr rfl⟩ List.Forall₂.nil
      · simp only [hl, Bool.false_eq_true, if_false]
        have hlen : rest.length ≤ calls := by
          simp only [List.length_append, List.length_cons, List.length_replicate] at h
          omega
        obtain ⟨i1, i2, i3⟩ := ih rest hlen
        refine ⟨i1, ?_, ?_⟩
        · simp only [List.length_cons, List.length_append, List.length_replicate]
          omega
        · have hc : (List.replicate k '\n' ++ L ++ ['\n']).isEmpty = false := by
            cases k <;> cases L <;> simp_all [List.replicate_succ]
          simp only [List.filter_cons, hc, Bool.not_false, if_true]
          exact List.Forall₂.cons ⟨k, 1, rfl, Or.inl rfl⟩ i3

/-- C20: a buffer of `n` lines is empty after at most `n` calls of
`extractSingleLine`, each call on a buffer that is not empty leaving a shorter
one; the strings the calls return that are not empty release, one each and in
order, exactly the non-blank lines of the initial buffer (each is that line
after some line breaks and before one or two); and the buffer a call leaves is
a suffix of the buffer before it. -/
theorem extractSingleLine_drain (generateCache : List QString) :
    (drain generateCache.length generateCache).2 = []
      ∧ (drain generateCache.length generateCache).1.length ≤ generateCache.length
      ∧ (generateCache ≠ [] →
          (extractSingleLine generateCache).2.length < generateCache.length)
      ∧ (extractSingleLine generateCache).2 <:+ generateCache
      ∧ List.Forall₂ Releases
          ((drain generateCache.length generateCache).1.filter fun x => !x.isEmpty)
          (generateCache.filter fun x => !x.isEmpty) := by
  obtain ⟨h1, h2, h3⟩ := drain_releases generateCache.length generateCache (Nat.le_refl _)
  exact ⟨h1, h2, extractSingleLine_shorter generateCache, extractSingleLine_suffix generateCache,
    h3⟩

theorem extractSingleLine_drain_witness :
    (extractSingleLine [[], "foo".toList, "bar".toList]).2.length
      < [[], "foo".toList, "bar".toList].length :=
  (extractSingleLine_drain [[], "foo".toList, "bar".toList]).2.2.1 (by simp)

/-! ## Event parser: the kinds of an Entry -/

/-- C21, as the claim states it, fails: for the event `processing` and the payload
`{"type":"search"}` the Entry returned has the kind `search`, which is none of
`text`, `keyword`, `crawl`, `finish` and the empty kind. -/
theorem processJsonObject_kind_counterexample :
    processJsonObject "processing".toList
        (some [("type".toList, QJsonValue.String "search".toList)])
      = ⟨"search".toList, [], []⟩
    ∧ (processJsonObject "processing".toList
        (some [("type".toList, QJsonValue.String "search".toList)])).type
      ∉ ["text".toList, "keyword".toList, "crawl".toList, "finish".toList, []] := by
  decide

/-- C21, amended: the kind of the Entry `processJsonObject` returns is `text`,
`finish` or unset, or, for the event `processing` with a payload that is not
empty, the string of the payload's member `type`, whatever that string is
(unset when there is no such string); when that string is neither `keyword`
nor `crawl` the Entry has this kind, an empty text and no websites. -/
theorem processJsonObject_kind (event : QString) (obj : Option QJsonObject) :
    ((processJsonObject event obj).type ∈ ["text".toList, "finish".toList, []]
        ∨ (event = "processing".toList ∧ ∃ o, obj = some o ∧ o ≠ []
            ∧ (processJsonObject event obj).type = (o.value "type".toList).toString))
      ∧ (∀ o, event = "processing".toList → obj = some o → o ≠ [] →
          (o.value "type".toList).toString ≠ "keyword".toList →
          (o.value "type".toList).toString ≠ "crawl".toList →
          processJsonObject event obj = ⟨(o.value "type".toList).toString, [], []⟩) := by
  have hpa : ("processing".toList = "add".toList) = False := by decide
  constructor
  · cases obj with
    | none => exact Or.inl (by simp [processJsonObject])
    | some o =>
      cases o with
      | nil => exact Or.inl (by simp [processJsonObject])
      | cons a rest =>
        by_cases h1 : event = "add".toList
        · exact Or.inl (by simp [processJsonObject, h1])
        by_cases h2 : event = "processing".toList
        · refine Or.inr ⟨h2, a :: rest, rfl, by simp, ?_⟩
          subst h2
          simp only [processJsonObject, List.isEmpty_cons, Bool.false_eq_true, if_false, hpa,
            if_true]
          split_ifs with hk hc
          · rfl
          · rw [crawl_foldl]
          · rfl
        by_cases h3 : event = "finish".toList
        · refine Or.inl ?_
          subst h3
          have e1 : ("finish".toList = "add".toList) = False := by decide
          have e2 : ("finish".toList = "processing".toList) = False := by decide
          simp only [processJsonObject, List.isEmpty_cons, Bool.false_eq_true, if_false, e1, e2,
            if_true]
          decide
        · refine Or.inl ?_
          simp only [processJsonObject, List.isEmpty_cons, Bool.false_eq_true, if_false, h1, h2,
            h3]
          decide
  · intro o he ho hne hk hc
    subst he
    subst ho
    have hemp : o.isEmpty = false := by
      cases o with
      | nil => exact absurd rfl hne
      | cons a rest => rfl
    simp only [processJsonObject, hemp, Bool.false_eq_true, if_false, hpa, if_true, hk, hc]

theorem processJsonObject_kind_witness :
    processJsonObject "processing".toList
        (some [("type".toList, QJsonValue.String "thinking".toList)])
      = ⟨"thinking".toList, [], []⟩ :=
  (processJsonObject_kind "processing".toList
    (some [("type".toList, QJsonValue.String "thinking".toList)])).2
    [("type".toList, QJsonValue.String "thinking".toList)] rfl rfl (by simp) (by decide)
    (by decide)

/-! ## Completion extractor: the buffer after a call and along a run -/

/-- C22: after a call of `extractSingleLine`, on any buffer, the line buffer is empty
or holds a line that is not blank. -/
theorem extractSingleLine_buffer_after (generateCache : List QString) :
    (extractSingleLine generateCache).2 = []
      ∨ ∃ x ∈ (extractSingleLine generateCache).2, x ≠ [] := by
  rcases blanks_or_line generateCache with ⟨k, hk⟩ | ⟨k, L, rest, hL, hk⟩
  · subst hk
    rw [extractSingleLine_blanks]
    exact Or.inl rfl
  · subst hk
    rw [extractSingleLine_line k L rest hL]
    by_cases hl : leftAllEmpty rest = true
    · simp only [hl, if_true]
      exact Or.inl trivial
    · simp only [hl, Bool.false_eq_true, if_false]
      right
      have hn : ¬ ∀ x ∈ rest, x = [] := fun hall => hl ((leftAllEmpty_iff rest).2 hall)
      push_neg at hn
      exact hn

theorem step_invariant (s s1 : Session) (e : Event) (hinv : RunInvariant s)
    (hstep : step s e = some s1) : RunInvariant s1 := by
  obtain ⟨hcache, hmode⟩ := hinv
  cases e with
  | generateCode =>
    cases hen : s.copilot.inlineCompletionEnabled with
    | false =>
      simp [step, generateCode, hen] at hstep
      subst hstep
      exact ⟨hcache, hmode⟩
    | true =>
      simp [step, generateCode, hen, hcache] at hstep
      subst hstep
      exact ⟨rfl, fun _ => rfl⟩
  | response responseType response dstLang =>
    cases responseType with
    | inline_completions =>
      by_cases hp : s.pending = 0
      · simp [step, hp] at hstep
      · have hblock := hmode (Nat.pos_of_ne_zero hp)
        simp only [step, hp, if_false, Option.some.injEq] at hstep
        subst hstep
        cases hv : responseValid response with
        | false =>
          have h1 : (onResponse s.copilot ResponseType.inline_completions response dstLang).1
              = s.copilot := by simp [onResponse, hv]
          exact ⟨by simp only [h1]; exact hcache, fun _ => by simp only [h1]; exact hblock⟩
        | true =>
          constructor
          · simp [onResponse, hv, hblock]
          · intro _
            simp [onResponse, hv, hblock]
    | multilingual_code_comment =>
      simp [step, onResponse] at hstep
      subst hstep
      exact ⟨hcache, hmode⟩
    | other =>
      simp [step, onResponse] at hstep
      subst hstep
      exact ⟨hcache, hmode⟩
  | setContext pre suf =>
    simp [step] at hstep
    subst hstep
    exact ⟨hcache, hmode⟩
  | setGenerateCodeEnabled enabled =>
    simp [step] at hstep
    subst hstep
    exact ⟨hcache, hmode⟩

theorem run_invariant (s s1 : Session) (events : List Event) (hinv : RunInvariant s)
    (hrun : run s events = some s1) : RunInvariant s1 := by
  induction events generalizing s with
  | nil =>
    simp only [run, Option.some.injEq] at hrun
    subst hrun
    exact hinv
  | cons e rest ih =>
    simp only [run] at hrun
    cases hs : step s e with
    | none => simp [hs] at hrun
    | some s2 =>
      simp only [hs] at hrun
      exact ih s2 (step_invariant s s2 e hinv hs) hrun

/-- C23: `checkPrefixType` returns Block for every prefix, and in every state reached
from a state with an empty line buffer and no pending request by calls of
`generateCode`, responses (the inline-completion ones answering requests that
`generateCode` issued), moves of the editor context and
`setGenerateCodeEnabled`, the line buffer is empty; there `generateCode`, when
inline completion is enabled, issues a generation request in Block mode and
nothing else, and serves nothing from the buffer. -/
theorem run_buffer_empty (init : Copilot) (events : List Event) (s : Session)
    (hinit : init.generateCache = []) (hrun : run ⟨init, 0⟩ events = some s) :
    (∀ prefixCode, checkPrefixType prefixCode = GenerateType.Block)
      ∧ s.copilot.generateCache = []
      ∧ (s.copilot.inlineCompletionEnabled = true →
          (generateCode s.copilot).2
              = [Action.postGenerate kUrlGenerateMultiLine s.copilot.contextPrefix
                  s.copilot.contextSuffix GenerateType.Block]
            ∧ (generateCode s.copilot).1.generateCache = []
            ∧ (generateCode s.copilot).1.generatedCode = s.copilot.generatedCode) := by
  have hinv : RunInvariant s :=
    run_invariant ⟨init, 0⟩ s events ⟨hinit, fun h => absurd h (Nat.lt_irrefl 0)⟩ hrun
  refine ⟨fun _ => rfl, hinv.1, fun hen => ?_⟩
  simp [generateCode, hen, hinv.1, checkPrefixType]

theorem run_buffer_empty_witness :
    (⟨⟨[], "x\ny".toList, GenerateType.Block, true, "abx\ny".toList, []⟩, 1⟩ :
        Session).copilot.generateCache = [] :=
  (run_buffer_empty ⟨[], [], GenerateType.Line, true, "ab".toList, []⟩
    [Event.generateCode, Event.response ResponseType.inline_completions "x\ny\n".toList [],
      Event.setContext "abx\ny".toList [], Event.generateCode]
    ⟨⟨[], "x\ny".toList, GenerateType.Block, true, "abx\ny".toList, []⟩, 1⟩
    rfl (by decide)).2.1

end UnionCode
